import Mathlib

/-!
# Verification of the weeb-3 retrieval engine

Shallow embedding of `src/retrieval.rs` (peer selection, the single-chunk
fetch state machine, the recursive assembler `retrieve_data`, and the feed
locator `seek_latest_feed_update`) together with proofs and refutations of
the specification claims.

Conventions of the embedding:
* bytes are natural numbers, byte strings are `List ℕ`;
* `PeerId` and overlay keys are opaque natural numbers;
* external collaborators absent from the sources (`get_proximity`, `price`,
  `valid_cac`, `valid_soc`, the network exchange) are oracle parameters;
* the accounting module (`reserve`, `apply_credit`, `cancel_reserve`,
  `REFRESH_RATE`) is not part of the given sources and is modelled from the
  specification, as documented on each of those definitions;
* `u64` arithmetic wraps (release build semantics), written `% W` below;
* loops are fuel-indexed: a `none` result means the loop did not finish
  within the given fuel.
-/

namespace Weeb3

/-- Byte strings (`Vec<u8>`): lists of naturals. -/
abbrev Bytes := List ℕ

/-- The `u64` modulus `2^64`: release-build Rust arithmetic wraps at this. -/
def W : ℕ := 2 ^ 64

/-- `u64::MAX`, the sentinel used for `smallest_not_found`. -/
def MAXU : ℕ := W - 1

/-! ## Peer selection (retrieval.rs lines 192-212)

The loop over the peer table keeps `(selected, closest_overlay,
closest_peer_id, current_max_po)` and replaces the current best whenever a
non-skip-listed entry has proximity order `>=` the running maximum.
`get_proximity` lives outside the given sources, so the proximity of an
overlay is an oracle parameter `po`. The `HashMap` iteration is modelled as
a list of `(overlay, peer id)` pairs in iteration order. -/

/-- Accumulator of the peer-selection loop: the mutable quadruple
`(selected, closest_overlay, closest_peer_id, current_max_po)`. -/
structure SelAcc where
  selected : Bool
  closestOverlay : ℕ
  closestPeerId : ℕ
  currentMaxPo : ℕ
deriving Repr, DecidableEq

/-- One iteration of the peer-selection loop (lines 198-210): skip-listed
entries are passed over, otherwise an entry with `po >= current_max_po`
becomes the new best. -/
def selStep (po : ℕ → ℕ) (skiplist : List ℕ) (acc : SelAcc) (e : ℕ × ℕ) : SelAcc :=
  if e.2 ∈ skiplist then acc
  else if acc.currentMaxPo ≤ po e.1 then
    { selected := true, closestOverlay := e.1, closestPeerId := e.2, currentMaxPo := po e.1 }
  else acc

/-- Initial accumulator (lines 192-195): nothing selected, maximum zero. -/
def selInit : SelAcc :=
  { selected := false, closestOverlay := 0, closestPeerId := 0, currentMaxPo := 0 }

/-- The whole selection loop over the peer table snapshot. -/
def selectLoop (po : ℕ → ℕ) (skiplist : List ℕ) (table : List (ℕ × ℕ)) : SelAcc :=
  table.foldl (selStep po skiplist) selInit

/-- The result of the peer-selection step of `retrieve_chunk`: the selected
`(overlay, peer id)` pair, or `none` when the loop ended with
`selected == false`. -/
def selectPeer (po : ℕ → ℕ) (skiplist : List ℕ) (table : List (ℕ × ℕ)) : Option (ℕ × ℕ) :=
  let acc := selectLoop po skiplist table
  if acc.selected then some (acc.closestOverlay, acc.closestPeerId) else none

section SelectLemmas

variable {po : ℕ → ℕ} {skiplist : List ℕ}

lemma selStep_selected_mono {acc : SelAcc} (e : ℕ × ℕ) (h : acc.selected = true) :
    (selStep po skiplist acc e).selected = true := by
  unfold selStep
  split
  · exact h
  · split
    · rfl
    · exact h

lemma foldl_selStep_selected_mono (l : List (ℕ × ℕ)) {acc : SelAcc} (h : acc.selected = true) :
    (l.foldl (selStep po skiplist) acc).selected = true := by
  induction l generalizing acc with
  | nil => exact h
  | cons e t ih => exact ih (selStep_selected_mono e h)

/-- The invariant that an unselected accumulator still has maximum zero. -/
def SelInv (acc : SelAcc) : Prop := acc.selected = false → acc.currentMaxPo = 0

lemma selInv_init : SelInv selInit := fun _ => rfl

lemma selStep_inv {acc : SelAcc} (hinv : SelInv acc) (e : ℕ × ℕ) :
    SelInv (selStep po skiplist acc e) := by
  unfold selStep
  split
  · exact hinv
  · split
    · intro h
      simp at h
    · exact hinv

/-- A non-skip-listed entry always turns `selected` on (the fresh maximum is
zero, and zero is `<=` any proximity). -/
lemma selStep_eligible_selected {acc : SelAcc} (hinv : SelInv acc) {e : ℕ × ℕ}
    (he : e.2 ∉ skiplist) : (selStep po skiplist acc e).selected = true := by
  unfold selStep
  simp only [he, if_false]
  split
  · rfl
  · rename_i hlt
    cases hsel : acc.selected with
    | true => rfl
    | false => exact absurd (hinv hsel ▸ Nat.zero_le (po e.1)) hlt

lemma foldl_selStep_inv (l : List (ℕ × ℕ)) {acc : SelAcc} (hinv : SelInv acc) :
    SelInv (l.foldl (selStep po skiplist) acc) := by
  induction l generalizing acc with
  | nil => exact hinv
  | cons e t ih => exact ih (selStep_inv hinv e)

/-- If the fold ends unselected, every entry of the list was skip-listed. -/
lemma foldl_selStep_not_selected (l : List (ℕ × ℕ)) {acc : SelAcc} (hinv : SelInv acc)
    (h : (l.foldl (selStep po skiplist) acc).selected = false) :
    ∀ e ∈ l, e.2 ∈ skiplist := by
  induction l generalizing acc with
  | nil => intro e he; simp at he
  | cons e t ih =>
    intro f hf
    by_cases he : e.2 ∈ skiplist
    · rcases List.mem_cons.mp hf with hfe | hft
      · exact hfe ▸ he
      · exact ih (selStep_inv hinv e) h f hft
    · exfalso
      have hsel : (selStep po skiplist acc e).selected = true :=
        selStep_eligible_selected hinv he
      have hmono : (t.foldl (selStep po skiplist)
          (selStep po skiplist acc e)).selected = true :=
        foldl_selStep_selected_mono t hsel
      simp only [List.foldl_cons] at h
      rw [hmono] at h
      exact Bool.noConfusion h

/-- Folding over an all-skip-listed list leaves the accumulator unchanged. -/
lemma foldl_selStep_all_skipped (l : List (ℕ × ℕ)) (acc : SelAcc)
    (h : ∀ e ∈ l, e.2 ∈ skiplist) : l.foldl (selStep po skiplist) acc = acc := by
  induction l generalizing acc with
  | nil => rfl
  | cons e t ih =>
    have he : e.2 ∈ skiplist := h e (List.mem_cons_self e t)
    simp only [List.foldl_cons, selStep, he, if_true]
    exact ih acc fun f hf => h f (List.mem_cons_of_mem e hf)

/-- The running maximum never decreases. -/
lemma selStep_maxPo_mono (acc : SelAcc) (e : ℕ × ℕ) :
    acc.currentMaxPo ≤ (selStep po skiplist acc e).currentMaxPo := by
  unfold selStep
  split
  · exact le_refl _
  · split
    · assumption
    · exact le_refl _

lemma foldl_selStep_maxPo_mono (l : List (ℕ × ℕ)) (acc : SelAcc) :
    acc.currentMaxPo ≤ (l.foldl (selStep po skiplist) acc).currentMaxPo := by
  induction l generalizing acc with
  | nil => exact le_refl _
  | cons e t ih => exact (selStep_maxPo_mono acc e).trans (ih _)

/-- Every eligible entry's proximity is bounded by the final maximum. -/
lemma foldl_selStep_maxPo_ge (l : List (ℕ × ℕ)) (acc : SelAcc) :
    ∀ e ∈ l, e.2 ∉ skiplist → po e.1 ≤ (l.foldl (selStep po skiplist) acc).currentMaxPo := by
  induction l generalizing acc with
  | nil => intro e he; simp at he
  | cons e t ih =>
    intro f hf hfsk
    rcases List.mem_cons.mp hf with hfe | hft
    · subst hfe
      simp only [List.foldl_cons]
      refine le_trans ?_ (foldl_selStep_maxPo_mono t _)
      unfold selStep
      simp only [hfsk, if_false]
      split
      · exact le_refl _
      · rename_i hlt
        exact le_of_not_le hlt
    · exact ih _ f hft hfsk

lemma selStep_of_skip {acc : SelAcc} {e : ℕ × ℕ} (he : e.2 ∈ skiplist) :
    selStep po skiplist acc e = acc := by
  simp [selStep, he]

lemma selStep_of_ge {acc : SelAcc} {e : ℕ × ℕ} (he : e.2 ∉ skiplist)
    (hge : acc.currentMaxPo ≤ po e.1) :
    selStep po skiplist acc e =
      { selected := true, closestOverlay := e.1, closestPeerId := e.2,
        currentMaxPo := po e.1 } := by
  simp [selStep, he, hge]

lemma selStep_of_lt {acc : SelAcc} {e : ℕ × ℕ} (hlt : ¬acc.currentMaxPo ≤ po e.1) :
    selStep po skiplist acc e = acc := by
  by_cases hsk : e.2 ∈ skiplist
  · simp [selStep, hsk]
  · simp [selStep, hsk, hlt]

/-- Where the fold's result comes from: either the accumulator went through
unchanged, or the result records some eligible entry of the list. -/
lemma foldl_selStep_source (l : List (ℕ × ℕ)) (acc : SelAcc) :
    l.foldl (selStep po skiplist) acc = acc ∨
      ∃ e ∈ l, e.2 ∉ skiplist ∧
        (l.foldl (selStep po skiplist) acc).selected = true ∧
        (l.foldl (selStep po skiplist) acc).closestOverlay = e.1 ∧
        (l.foldl (selStep po skiplist) acc).closestPeerId = e.2 ∧
        (l.foldl (selStep po skiplist) acc).currentMaxPo = po e.1 := by
  induction l generalizing acc with
  | nil => exact Or.inl rfl
  | cons e t ih =>
    simp only [List.foldl_cons]
    by_cases hsk : e.2 ∈ skiplist
    · rw [selStep_of_skip hsk]
      rcases ih acc with h | ⟨f, hf, hfsk, h1, h2, h3, h4⟩
      · exact Or.inl h
      · exact Or.inr ⟨f, List.mem_cons_of_mem e hf, hfsk, h1, h2, h3, h4⟩
    · by_cases hge : acc.currentMaxPo ≤ po e.1
      · rw [selStep_of_ge hsk hge]
        rcases ih ⟨true, e.1, e.2, po e.1⟩ with h | ⟨f, hf, hfsk, h1, h2, h3, h4⟩
        · rw [h]
          exact Or.inr ⟨e, List.mem_cons_self e t, hsk, rfl, rfl, rfl, rfl⟩
        · exact Or.inr ⟨f, List.mem_cons_of_mem e hf, hfsk, h1, h2, h3, h4⟩
      · rw [selStep_of_lt hge]
        rcases ih acc with h | ⟨f, hf, hfsk, h1, h2, h3, h4⟩
        · exact Or.inl h
        · exact Or.inr ⟨f, List.mem_cons_of_mem e hf, hfsk, h1, h2, h3, h4⟩

/-- Characterisation of a successful selection: the returned pair is an
eligible table entry of maximal proximity. -/
lemma selectPeer_some {table : List (ℕ × ℕ)} {ov pid : ℕ}
    (h : selectPeer po skiplist table = some (ov, pid)) :
    pid ∉ skiplist ∧ (ov, pid) ∈ table ∧
      ∀ e ∈ table, e.2 ∉ skiplist → po e.1 ≤ po ov := by
  unfold selectPeer selectLoop at h
  have hsource : table.foldl (selStep po skiplist) selInit = selInit ∨
      ∃ e ∈ table, e.2 ∉ skiplist ∧
        (table.foldl (selStep po skiplist) selInit).selected = true ∧
        (table.foldl (selStep po skiplist) selInit).closestOverlay = e.1 ∧
        (table.foldl (selStep po skiplist) selInit).closestPeerId = e.2 ∧
        (table.foldl (selStep po skiplist) selInit).currentMaxPo = po e.1 :=
    foldl_selStep_source table selInit
  rcases hsource with hsrc | ⟨f, hf, hfsk, h1, h2, h3, h4⟩
  · rw [hsrc] at h
    simp [selInit] at h
  · rw [if_pos h1] at h
    simp only [Option.some.injEq, Prod.mk.injEq] at h
    obtain ⟨hov, hpid⟩ := h
    rw [h2] at hov
    rw [h3] at hpid
    subst hov hpid
    refine ⟨hfsk, hf, ?_⟩
    intro e he hesk
    have hb : po e.1 ≤ (table.foldl (selStep po skiplist) selInit).currentMaxPo :=
      foldl_selStep_maxPo_ge table selInit e he hesk
    rw [h4] at hb
    exact hb

/-- `selectPeer` returns `none` exactly when every table entry is
skip-listed (in particular on the empty table). -/
lemma selectPeer_none_iff {table : List (ℕ × ℕ)} :
    selectPeer po skiplist table = none ↔ ∀ e ∈ table, e.2 ∈ skiplist := by
  constructor
  · intro h
    unfold selectPeer selectLoop at h
    by_cases hsel : (table.foldl (selStep po skiplist) selInit).selected = true
    · rw [if_pos hsel] at h
      exact absurd h (by simp)
    · have hfalse : (table.foldl (selStep po skiplist) selInit).selected = false := by
        cases hb : (table.foldl (selStep po skiplist) selInit).selected
        · rfl
        · exact absurd hb hsel
      exact foldl_selStep_not_selected table selInv_init hfalse
  · intro h
    unfold selectPeer selectLoop
    rw [foldl_selStep_all_skipped table selInit h]
    rfl

/-- The last-greater-or-equal tie policy: appending an eligible entry whose
proximity is `>=` that of every eligible entry before it makes that entry
the selection result. -/
lemma selectPeer_last_ge {front : List (ℕ × ℕ)} {ov pid : ℕ}
    (hsk : pid ∉ skiplist)
    (hge : ∀ e ∈ front, e.2 ∉ skiplist → po e.1 ≤ po ov) :
    selectPeer po skiplist (front ++ [(ov, pid)]) = some (ov, pid) := by
  have hmax : (front.foldl (selStep po skiplist) selInit).currentMaxPo ≤ po ov := by
    have hsource : front.foldl (selStep po skiplist) selInit = selInit ∨
        ∃ e ∈ front, e.2 ∉ skiplist ∧
          (front.foldl (selStep po skiplist) selInit).selected = true ∧
          (front.foldl (selStep po skiplist) selInit).closestOverlay = e.1 ∧
          (front.foldl (selStep po skiplist) selInit).closestPeerId = e.2 ∧
          (front.foldl (selStep po skiplist) selInit).currentMaxPo = po e.1 :=
      foldl_selStep_source front selInit
    rcases hsource with hsrc | ⟨f, hf, hfsk, _, _, _, h4⟩
    · rw [hsrc]
      exact Nat.zero_le _
    · rw [h4]
      exact hge f hf hfsk
  unfold selectPeer selectLoop
  rw [List.foldl_append]
  simp only [List.foldl_cons, List.foldl_nil]
  rw [selStep_of_ge hsk hmax]
  rfl

end SelectLemmas

/-- Claim C4: the peer-selection step of `retrieve_chunk` never selects a
skip-listed peer; it selects no peer exactly when every table entry is
skip-listed (in particular on an empty table); otherwise it selects an
eligible table entry whose proximity order is maximal among eligible
entries, and a later-iterated candidate replaces the current best whenever
its proximity order is greater or equal (the last-greater-or-equal tie
policy). -/
theorem claim_C4 (po : ℕ → ℕ) (skiplist : List ℕ) (table : List (ℕ × ℕ)) :
    (∀ ov pid, selectPeer po skiplist table = some (ov, pid) →
        pid ∉ skiplist ∧ (ov, pid) ∈ table ∧
          ∀ e ∈ table, e.2 ∉ skiplist → po e.1 ≤ po ov) ∧
    (selectPeer po skiplist table = none ↔ ∀ e ∈ table, e.2 ∈ skiplist) ∧
    (∀ (front : List (ℕ × ℕ)) (ov pid : ℕ), pid ∉ skiplist →
        (∀ e ∈ front, e.2 ∉ skiplist → po e.1 ≤ po ov) →
        selectPeer po skiplist (front ++ [(ov, pid)]) = some (ov, pid)) :=
  ⟨fun _ _ h => selectPeer_some h, selectPeer_none_iff,
    fun _ _ _ hsk hge => selectPeer_last_ge hsk hge⟩

/-- Witness for C4: concrete instance of the last-greater-or-equal policy,
with all hypotheses discharged at a tie between proximity 7 entries. -/
theorem claim_C4_witness :
    selectPeer Nat.succ [5] ([(3, 6), (7, 8)] ++ [(7, 9)]) = some (7, 9) :=
  (claim_C4 Nat.succ [5] ([(3, 6), (7, 8)] ++ [(7, 9)])).2.2 [(3, 6), (7, 8)] 7 9
    (by decide) (by decide)

/-! ## Probe dispatch of the feed locator (retrieval.rs lines 419-438)

The dispatch loop of one round of `seek_latest_feed_update`: starting from
`i = 0`, while `lower_bound + i <= upper_bound` a probe is dispatched at
index `lower_bound + i`; then `i` is incremented by one when `i == 0` or
the window width (`angle`) is at most the redundancy, and doubled
otherwise. In the release build, `u64` arithmetic wraps, so additions and
the doubling are taken `% W`. -/

/-- The list of probe indices dispatched by the loop, starting at counter
value `i`; `none` when the loop does not exit within `fuel` iterations. -/
def dispatchList (lb ub angle r : ℕ) : ℕ → ℕ → Option (List ℕ)
  | 0, _ => none
  | fuel + 1, i =>
    if (lb + i) % W ≤ ub then
      match dispatchList lb ub angle r fuel
          (if i = 0 ∨ angle ≤ r then (i + 1) % W else (i * 2) % W) with
      | none => none
      | some l => some ((lb + i) % W :: l)
    else some []

/-- The probe indices of the first round of `seek_latest_feed_update` with
redundancy `r`: the round starts with `lower_bound = 0` and
`upper_bound = 2^r` (both taken mod `W`). -/
def firstRoundProbes (r fuel : ℕ) : Option (List ℕ) :=
  dispatchList 0 (2 ^ r % W) (2 ^ r % W - 0) r fuel 0

/-- Counterexample to C9: with redundancy 2 the first round dispatches
probes at indices 0, 1, 2 and 4 — not at 0, 1 and 3 as claimed (after
`i = 1`, the counter doubles to 2 and then to 4, and `0 + 4 <= 4` still
holds, so 2 and 4 are both probed). -/
theorem claim_C9_counterexample :
    firstRoundProbes 2 16 = some [0, 1, 2, 4] ∧
      decide ([0, 1, 2, 4] = [0, 1, 3]) = false := by
  constructor
  · rfl
  · rfl

/-- Claim C9 (amended): with redundancy 2 (initial `lower_bound = 0`,
`upper_bound = 4`, window width 4), the first round of
`seek_latest_feed_update` dispatches existence probes at exactly the
indices 0, 1, 2 and 4. -/
theorem claim_C9 : firstRoundProbes 2 16 = some [0, 1, 2, 4] := rfl

/-! ## The recursive assembler retrieve_data (retrieval.rs lines 75-152)

`retrieve_data` fetches the chunk at an address (via `retrieve_chunk`,
abstracted here as the oracle `fetch`), reads the 8-byte little-endian
span, returns the chunk unmodified when the span is at most 4096, and
otherwise cuts the rest into 32-byte child addresses, fetches the children
recursively, collects the completed `(payload, index)` pairs into a map
keyed by index, and concatenates the payloads (each minus its own 8-byte
span prefix) after the original span prefix, in index order. Recursion
depth is fuel-indexed. -/

/-- The 8-byte little-endian span prefix
(`u64::from_le_bytes(orig[0..8])`). -/
def spanOf (b : Bytes) : ℕ :=
  (List.range 8).foldr (fun i acc => acc * 256 + b.getD i 0) 0

/-- The child addresses of an intermediate chunk: the consecutive 32-byte
groups after the 8-byte span prefix (`content_holder_2`). -/
def childAddresses (orig : Bytes) : List Bytes :=
  (List.range ((orig.length - 8) / 32)).map fun i => (orig.drop (8 + i * 32)).take 32

/-- The fan-in map (`content_holder_3`): completed child fetches
`(payload, index)` are inserted in arrival order into a map keyed by
index; a later insert for the same key overwrites. -/
def fanIn (arr : List (Bytes × ℕ)) : ℕ → Option Bytes :=
  arr.foldl (fun m p j => if j = p.2 then some p.1 else m j) fun _ => none

/-- The final concatenation loop (lines 136-149): starting from the 8-byte
span prefix, child `i`'s payload minus its own 8-byte span prefix is
appended in index order; a missing or empty child aborts the whole result
to the empty byte string. -/
def assembleLoop (m : ℕ → Option Bytes) (subs : ℕ) : ℕ → Bytes → Bytes
  | i, data =>
    if h : i < subs then
      match m i with
      | some d => if 0 < d.length then assembleLoop m subs (i + 1) (data ++ d.drop 8) else []
      | none => []
    else data
termination_by i => subs - i
decreasing_by exact Nat.sub_lt_sub_left h (Nat.lt_succ_self i)

/-- Sequential collection of the recursive child results: `none` as soon
as one child result is undetermined (fuel exhaustion in the model). -/
def collectResults (f : Bytes → Option Bytes) : List Bytes → Option (List Bytes)
  | [] => some []
  | a :: t =>
    match f a, collectResults f t with
    | some b, some bs => some (b :: bs)
    | _, _ => none

/-- `retrieve_data` (lines 75-152). `fetch` abstracts `retrieve_chunk`:
the validated bytes the fetch state machine returns for an address. The
first fuel exhaustion makes the result `none` (tree deeper than the
model's fuel); every genuine code path returns `some`. -/
def retrieve_data (fetch : Bytes → Bytes) : ℕ → Bytes → Option Bytes
  | 0, _ => none
  | fuel + 1, addr =>
    let orig := fetch addr
    if orig.length < 8 then some []
    else if spanOf orig ≤ 4096 then some orig
    else if (orig.length - 8) % 32 ≠ 0 then some []
    else
      let subs := (orig.length - 8) / 32
      match collectResults (fun a => retrieve_data fetch fuel a) (childAddresses orig) with
      | none => none
      | some rs => some (assembleLoop (fanIn (rs.zip (List.range subs))) subs 0 (orig.take 8))

section AssemblerLemmas

/-- The update step of `fanIn`, named for the fold lemmas. -/
def fanInUpd (m : ℕ → Option Bytes) (p : Bytes × ℕ) : ℕ → Option Bytes :=
  fun j => if j = p.2 then some p.1 else m j

lemma fanIn_eq_foldl (arr : List (Bytes × ℕ)) :
    fanIn arr = arr.foldl fanInUpd fun _ => none := rfl

lemma foldl_fanInUpd_not_mem (arr : List (Bytes × ℕ)) (m : ℕ → Option Bytes) (i : ℕ)
    (h : i ∉ arr.map Prod.snd) : (arr.foldl fanInUpd m) i = m i := by
  induction arr generalizing m with
  | nil => rfl
  | cons p t ih =>
    simp only [List.map_cons, List.mem_cons, not_or] at h
    simp only [List.foldl_cons]
    rw [ih _ h.2]
    simp [fanInUpd, h.1]

lemma foldl_fanInUpd_mem (arr : List (Bytes × ℕ)) (m : ℕ → Option Bytes) (i : ℕ) (b : Bytes)
    (hnd : (arr.map Prod.snd).Nodup) (hmem : (b, i) ∈ arr) :
    (arr.foldl fanInUpd m) i = some b := by
  induction arr generalizing m with
  | nil => simp at hmem
  | cons p t ih =>
    simp only [List.map_cons, List.nodup_cons] at hnd
    simp only [List.foldl_cons]
    rcases List.mem_cons.mp hmem with hp | ht
    · have hkey : i ∉ t.map Prod.snd := by
        rw [← hp] at hnd
        exact hnd.1
      rw [foldl_fanInUpd_not_mem t _ i hkey]
      rw [← hp]
      simp [fanInUpd]
    · exact ih _ hnd.2 ht

/-- With pairwise-distinct indices, the fan-in map sends each present index
to its payload, independently of arrival order. -/
lemma fanIn_of_mem {arr : List (Bytes × ℕ)} {i : ℕ} {b : Bytes}
    (hnd : (arr.map Prod.snd).Nodup) (hmem : (b, i) ∈ arr) : fanIn arr i = some b :=
  foldl_fanInUpd_mem arr _ i b hnd hmem

/-- Keys of the canonical arrival list are exactly the child indices. -/
lemma canonical_keys (rs : List Bytes) (n : ℕ) (hlen : rs.length = n) :
    (rs.zip (List.range n)).map Prod.snd = List.range n :=
  List.map_snd_zip rs (List.range n) (by rw [hlen, List.length_range])

lemma canonical_mem (rs : List Bytes) (n i : ℕ) (hlen : rs.length = n) (hi : i < n) :
    (rs.getD i [], i) ∈ rs.zip (List.range n) := by
  have hilen : i < (rs.zip (List.range n)).length := by
    rw [List.length_zip, hlen, List.length_range, Nat.min_self]
    exact hi
  have hget : (rs.zip (List.range n))[i] = (rs.getD i [], i) := by
    rw [List.getElem_zip, List.getElem_range]
    rw [List.getD_eq_getElem rs [] (by rw [hlen]; exact hi)]
  exact hget ▸ (rs.zip (List.range n)).getElem_mem hilen

/-- The fan-in lookup through any arrival permutation of the canonical
results: index `i` yields the `i`-th child result. -/
lemma fanIn_perm_lookup {rs : List Bytes} {n : ℕ} {arr : List (Bytes × ℕ)}
    (hlen : rs.length = n) (hperm : arr.Perm (rs.zip (List.range n)))
    {i : ℕ} (hi : i < n) : fanIn arr i = some (rs.getD i []) := by
  have hnd : (arr.map Prod.snd).Nodup := by
    have hp := hperm.map Prod.snd
    rw [canonical_keys rs n hlen] at hp
    exact hp.nodup_iff.mpr (List.nodup_range n)
  exact fanIn_of_mem hnd (hperm.mem_iff.mpr (canonical_mem rs n i hlen hi))

/-- Value of the concatenation loop when every remaining child is present
and non-empty: the payloads minus their span prefixes are appended in
index order. -/
lemma assembleLoop_value (m : ℕ → Option Bytes) (subs : ℕ) :
    ∀ (tail : List Bytes) (j : ℕ) (data : Bytes),
      j + tail.length = subs →
      (∀ t, t < tail.length → m (j + t) = some (tail.getD t [])) →
      (∀ b ∈ tail, b ≠ []) →
      assembleLoop m subs j data = data ++ (tail.map (List.drop 8)).flatten := by
  intro tail
  induction tail with
  | nil =>
    intro j data hj _ _
    rw [assembleLoop]
    simp only [List.length_nil, Nat.add_zero] at hj
    rw [dif_neg (by rw [hj]; exact Nat.lt_irrefl subs)]
    simp
  | cons b t ih =>
    intro j data hj hm hne
    have hjlt : j < subs := by
      rw [← hj]
      exact Nat.lt_add_of_pos_right (Nat.succ_pos t.length)
    have hmj : m j = some b := by
      have := hm 0 (Nat.succ_pos t.length)
      simpa using this
    have hblen : 0 < b.length :=
      List.length_pos.mpr (hne b (List.mem_cons_self b t))
    rw [assembleLoop, dif_pos hjlt, hmj]
    simp only [hblen, if_true]
    rw [ih (j + 1) (data ++ b.drop 8)
      (by rw [← hj, List.length_cons]; omega)
      (fun s hs => by
        have h2 := hm (s + 1) (by rw [List.length_cons]; omega)
        rw [List.getD_cons_succ] at h2
        rw [show j + 1 + s = j + (s + 1) by omega]
        exact h2)
      (fun c hc => hne c (List.mem_cons_of_mem b hc))]
    simp [List.append_assoc]

/-- Value of the concatenation loop when some remaining child is empty:
the whole result collapses to the empty byte string. -/
lemma assembleLoop_empty (m : ℕ → Option Bytes) (subs : ℕ) :
    ∀ (tail : List Bytes) (j : ℕ) (data : Bytes),
      j + tail.length = subs →
      (∀ t, t < tail.length → m (j + t) = some (tail.getD t [])) →
      [] ∈ tail →
      assembleLoop m subs j data = [] := by
  intro tail
  induction tail with
  | nil =>
    intro j data _ _ hmem
    simp at hmem
  | cons b t ih =>
    intro j data hj hm hmem
    have hjlt : j < subs := by
      rw [← hj]
      exact Nat.lt_add_of_pos_right (Nat.succ_pos t.length)
    have hmj : m j = some b := by
      have := hm 0 (Nat.succ_pos t.length)
      simpa using this
    rw [assembleLoop, dif_pos hjlt, hmj]
    rcases List.mem_cons.mp hmem with hb | ht
    · rw [← hb]
      simp
    · have hblen : 0 < b.length ∨ b = [] := by
        cases b with
        | nil => exact Or.inr rfl
        | cons x xs => exact Or.inl (Nat.succ_pos xs.length)
      rcases hblen with hpos | hnil
      · simp only [hpos, if_true]
        exact ih (j + 1) (data ++ b.drop 8)
          (by rw [← hj, List.length_cons]; omega)
          (fun s hs => by
            have h2 := hm (s + 1) (by rw [List.length_cons]; omega)
            rw [List.getD_cons_succ] at h2
            rw [show j + 1 + s = j + (s + 1) by omega]
            exact h2)
          ht
      · rw [hnil]
        simp

/-- Length preservation of the child-result collection. -/
lemma collectResults_length {f : Bytes → Option Bytes} :
    ∀ {l rs : List Bytes}, collectResults f l = some rs → rs.length = l.length := by
  intro l
  induction l with
  | nil =>
    intro rs h
    simp only [collectResults, Option.some.injEq] at h
    rw [← h]
  | cons a t ih =>
    intro rs h
    simp only [collectResults] at h
    cases hfa : f a with
    | none => rw [hfa] at h; simp at h
    | some b =>
      cases hct : collectResults f t with
      | none => rw [hfa, hct] at h; simp at h
      | some bs =>
        rw [hfa, hct] at h
        simp only [Option.some.injEq] at h
        rw [← h, List.length_cons, List.length_cons, ih hct]

end AssemblerLemmas

/-- Claim C2: a root chunk whose 8-byte little-endian span is at most 4096
is returned by `retrieve_data` unmodified (span prefix retained); a root
chunk with span above 4096 whose body splits into 32-byte child addresses
yields the original 8-byte span followed by each child's reassembled
payload minus that child's own 8-byte span prefix, concatenated strictly
in child-index order — and the fan-in of the child results produces that
same concatenation under every arrival order (any permutation of the
canonical completion list). -/
theorem claim_C2 (fetch : Bytes → Bytes) (fuel : ℕ) (addr : Bytes)
    (hlen : 8 ≤ (fetch addr).length) :
    (spanOf (fetch addr) ≤ 4096 →
      retrieve_data fetch (fuel + 1) addr = some (fetch addr)) ∧
    (∀ rs : List Bytes,
      4096 < spanOf (fetch addr) →
      ((fetch addr).length - 8) % 32 = 0 →
      collectResults (fun a => retrieve_data fetch fuel a)
        (childAddresses (fetch addr)) = some rs →
      (∀ b ∈ rs, b ≠ []) →
      retrieve_data fetch (fuel + 1) addr =
        some ((fetch addr).take 8 ++ (rs.map (List.drop 8)).flatten) ∧
      ∀ arr : List (Bytes × ℕ),
        arr.Perm (rs.zip (List.range (((fetch addr).length - 8) / 32))) →
        assembleLoop (fanIn arr) (((fetch addr).length - 8) / 32) 0
            ((fetch addr).take 8) =
          (fetch addr).take 8 ++ (rs.map (List.drop 8)).flatten) := by
  constructor
  · intro hspan
    simp only [retrieve_data]
    rw [if_neg (by omega), if_pos hspan]
  · intro rs hspan halign hrs hne
    have hlenrs : rs.length = ((fetch addr).length - 8) / 32 := by
      rw [collectResults_length hrs]
      simp [childAddresses]
    have hasm : ∀ arr : List (Bytes × ℕ),
        arr.Perm (rs.zip (List.range (((fetch addr).length - 8) / 32))) →
        assembleLoop (fanIn arr) (((fetch addr).length - 8) / 32) 0
            ((fetch addr).take 8) =
          (fetch addr).take 8 ++ (rs.map (List.drop 8)).flatten := by
      intro arr hperm
      refine assembleLoop_value (fanIn arr) _ rs 0 _ (by rw [Nat.zero_add, hlenrs]) ?_ hne
      intro t ht
      rw [Nat.zero_add]
      exact fanIn_perm_lookup hlenrs hperm (hlenrs ▸ ht)
    refine ⟨?_, hasm⟩
    simp only [retrieve_data]
    rw [if_neg (by omega), if_neg (by omega), if_neg (by rw [halign]; simp), hrs]
    exact congrArg some
      (hasm (rs.zip (List.range (((fetch addr).length - 8) / 32))) (List.Perm.refl _))

/-- Claim C5: `retrieve_data` never returns a partial document — the
result is the empty byte string whenever the root chunk is shorter than 8
bytes, whenever the span exceeds 4096 but the body after the 8-byte
prefix is not an exact multiple of 32 bytes, and whenever any recursive
child fetch returned empty. -/
theorem claim_C5 (fetch : Bytes → Bytes) (fuel : ℕ) (addr : Bytes) :
    ((fetch addr).length < 8 → retrieve_data fetch (fuel + 1) addr = some []) ∧
    (8 ≤ (fetch addr).length → 4096 < spanOf (fetch addr) →
      ((fetch addr).length - 8) % 32 ≠ 0 →
      retrieve_data fetch (fuel + 1) addr = some []) ∧
    (∀ rs : List Bytes, 8 ≤ (fetch addr).length → 4096 < spanOf (fetch addr) →
      ((fetch addr).length - 8) % 32 = 0 →
      collectResults (fun a => retrieve_data fetch fuel a)
        (childAddresses (fetch addr)) = some rs →
      [] ∈ rs →
      retrieve_data fetch (fuel + 1) addr = some []) := by
  refine ⟨?_, ?_, ?_⟩
  · intro hshort
    simp only [retrieve_data]
    rw [if_pos hshort]
  · intro hlen hspan halign
    simp only [retrieve_data]
    rw [if_neg (by omega), if_neg (by omega), if_pos halign]
  · intro rs hlen hspan halign hrs hmem
    have hlenrs : rs.length = ((fetch addr).length - 8) / 32 := by
      rw [collectResults_length hrs]
      simp [childAddresses]
    simp only [retrieve_data]
    rw [if_neg (by omega), if_neg (by omega), if_neg (by rw [halign]; simp), hrs]
    refine congrArg some (assembleLoop_empty _ _ rs 0 _ (by rw [Nat.zero_add, hlenrs]) ?_ hmem)
    intro t ht
    rw [Nat.zero_add]
    exact fanIn_perm_lookup hlenrs (List.Perm.refl _) (hlenrs ▸ ht)

/-- A 32-byte child address (all bytes 1). -/
def childAddrA : Bytes := List.replicate 32 1

/-- A 32-byte child address (all bytes 2). -/
def childAddrB : Bytes := List.replicate 32 2

/-- A root chunk: span 5000 (little endian) followed by two child
addresses. -/
def rootChunk : Bytes := [136, 19, 0, 0, 0, 0, 0, 0] ++ childAddrA ++ childAddrB

/-- Leaf chunk behind `childAddrA`: span 9, one payload byte 11. -/
def leafA : Bytes := [9, 0, 0, 0, 0, 0, 0, 0, 11]

/-- Leaf chunk behind `childAddrB`: span 9, one payload byte 12. -/
def leafB : Bytes := [9, 0, 0, 0, 0, 0, 0, 0, 12]

/-- A concrete chunk store for the assembler witnesses. -/
def fetchTree : Bytes → Bytes := fun a =>
  if a = [0] then rootChunk
  else if a = childAddrA then leafA
  else if a = childAddrB then leafB
  else []

/-- Witness for C2: the two-leaf tree reassembles to the root span
followed by the two stripped leaf payloads, also when the children
complete in reversed order. -/
theorem claim_C2_witness :
    retrieve_data fetchTree 2 [0] = some [136, 19, 0, 0, 0, 0, 0, 0, 11, 12] ∧
    assembleLoop (fanIn [(leafB, 1), (leafA, 0)]) 2 0 (rootChunk.take 8) =
      [136, 19, 0, 0, 0, 0, 0, 0, 11, 12] := by
  have h := (claim_C2 fetchTree 1 [0] (by decide)).2 [leafA, leafB]
    (by decide) (by decide) (by decide) (by decide)
  have h2 := h.2 [(leafB, 1), (leafA, 0)] (by decide)
  exact ⟨by rw [h.1]; rfl, h2.trans (by decide)⟩

/-- A chunk store where the second child of `rootChunk` is missing. -/
def fetchBroken : Bytes → Bytes := fun a =>
  if a = [0] then rootChunk
  else if a = [1] then [1, 2, 3]
  else if a = [2] then [137, 19, 0, 0, 0, 0, 0, 0] ++ List.replicate 31 3
  else if a = childAddrA then leafA
  else []

/-- Witness for C5: a short root, a misaligned root, and a tree with one
failed child all produce the empty result. -/
theorem claim_C5_witness :
    retrieve_data fetchBroken 2 [1] = some [] ∧
    retrieve_data fetchBroken 2 [2] = some [] ∧
    retrieve_data fetchBroken 2 [0] = some [] := by
  refine ⟨(claim_C5 fetchBroken 1 [1]).1 (by decide),
    (claim_C5 fetchBroken 1 [2]).2.1 (by decide) (by decide) (by decide),
    (claim_C5 fetchBroken 1 [0]).2.2 [leafA, []]
      (by decide) (by decide) (by decide) (by decide) (by decide)⟩

/-! ## Accounting (modelled from the spec)

The accounting module (`reserve`, `apply_credit`, `cancel_reserve`,
`REFRESH_RATE`, the refresh task) is part of this repository but not among
the given source files; the definitions below are modelled from the
specification (section 4.2). -/

/-- Modelled from the spec: the per-peer mutable ledger of the accounting
module (absent from src/) — outstanding reserved amount, committed
(spent) amount, and the credit limit. -/
structure PeerAccounting where
  reserved : ℕ
  committed : ℕ
  limit : ℕ
deriving Repr, DecidableEq

/-- Modelled from the spec: `reserve(peer, price)` of the accounting
module (absent from src/) adds the price to the reserved total when the
post-reservation total fits under the credit limit, else fails and leaves
the ledger unchanged. -/
def reserve (a : PeerAccounting) (price : ℕ) : Bool × PeerAccounting :=
  if a.reserved + price ≤ a.limit then
    (true, { a with reserved := a.reserved + price })
  else (false, a)

/-- Modelled from the spec: `apply_credit` (commit) of the accounting
module (absent from src/) converts a reservation into committed spend. -/
def apply_credit (a : PeerAccounting) (price : ℕ) : PeerAccounting :=
  { a with reserved := a.reserved - price, committed := a.committed + price }

/-- Modelled from the spec: `cancel_reserve` of the accounting module
(absent from src/) releases a reservation without crediting it. -/
def cancel_reserve (a : PeerAccounting) (price : ℕ) : PeerAccounting :=
  { a with reserved := a.reserved - price }

/-- Modelled from the spec: the accounting module's `REFRESH_RATE`
constant (absent from src/); only its positivity matters here. -/
def REFRESH_RATE : ℕ := 1

/-- Modelled from the spec: the effect of `request_refresh` — the
credit-limit owner raises the peer's headroom by the requested amount.
The embedding applies the raise during the pacing sleep of the same round
(single-threaded cooperative scheduling). -/
def raise_headroom (a : PeerAccounting) (amount : ℕ) : PeerAccounting :=
  { a with limit := a.limit + amount }

/-- Lookup in the accounting table (`HashMap<PeerId, _>` keyed by peer). -/
def lookupAcct (acct : List (ℕ × PeerAccounting)) (pid : ℕ) : Option PeerAccounting :=
  (acct.find? fun q => q.1 == pid).map fun q => q.2

/-- In-place ledger update for a peer already present in the table. -/
def updateAcct (acct : List (ℕ × PeerAccounting)) (pid : ℕ) (a : PeerAccounting) :
    List (ℕ × PeerAccounting) :=
  acct.map fun q => if q.1 = pid then (pid, a) else q

/-! ## The single-chunk fetch state machine (retrieval.rs lines 154-331)

`retrieve_chunk` is embedded as a fuel-indexed state machine over an
explicit state record and an event trace recording every call it makes on
the skip-list, the overdraft list, the accounting gate and the network
handler. External collaborators are oracles in `RcEnv`. -/

/-- The observable calls `retrieve_chunk` makes, in program order. -/
inductive Ev where
  | skipAdd (pid : ℕ)
  | skipRemove (pid : ℕ)
  | odAdd (pid : ℕ)
  | refreshReq (pid : ℕ)
  | reserveCall (pid price : ℕ) (ok : Bool)
  | handlerCall (pid : ℕ)
  | cancelCall (pid price : ℕ)
  | creditCall (pid price : ℕ)
deriving Repr, DecidableEq

/-- The mutable state of one `retrieve_chunk` invocation (lines 161-178),
together with the accounting table, the number of handler calls made, and
the event trace. -/
structure RcState where
  soc : Bool
  skiplist : List ℕ
  odlist : List ℕ
  errorCount : ℕ
  maxError : ℕ
  cd : Bytes
  acct : List (ℕ × PeerAccounting)
  attempts : ℕ
  evs : List Ev
deriving Repr, DecidableEq

/-- The oracle environment of one invocation: proximity and price per
overlay, the outcome of the n-th network exchange (`none` = transport
failure / `try_recv` error), the two validators, and the peer-table
snapshot. -/
structure RcEnv where
  po : ℕ → ℕ
  price : ℕ → ℕ
  exchange : ℕ → Option Bytes
  vcac : Bytes → Bool
  vsoc : Bytes → Bool
  peers : List (ℕ × ℕ)

/-- Outcome of one pass of the admission (`seer`) loop body. -/
inductive InnerOut where
  | gotPeer (ov pid : ℕ) (st : RcState)
  | gaveUp (st : RcState)
  | again (st : RcState)
deriving Repr, DecidableEq

/-- One iteration of the refresh branch (lines 219-223): send a refresh
request for the overdraft peer (whose effect, modelled from the spec,
raises the ledger's headroom by `10 * REFRESH_RATE`) and remove it from
the skip-list. -/
def refreshStep (s : RcState) (k : ℕ) : RcState :=
  { s with
    acct := match lookupAcct s.acct k with
      | some a => updateAcct s.acct k (raise_headroom a (10 * REFRESH_RATE))
      | none => s.acct
    skiplist := s.skiplist.erase k
    evs := s.evs ++ [Ev.refreshReq k, Ev.skipRemove k] }

/-- State after a successful selection (lines 213-214 and 245-248): the
peer enters the skip-list, and `max_error` is clamped to the
accounting-table size. -/
def selState (pid : ℕ) (st : RcState) : RcState :=
  { st with skiplist := pid :: st.skiplist,
            maxError := if st.acct.length < st.maxError then st.acct.length
                        else st.maxError,
            evs := st.evs ++ [Ev.skipAdd pid] }

/-- State after the `reserve` call (line 251): the ledger is replaced by
the post-reserve ledger `r.2` and the call is recorded. -/
def reserveState (pid p : ℕ) (r : Bool × PeerAccounting) (st : RcState) : RcState :=
  { st with acct := updateAcct st.acct pid r.2,
            evs := st.evs ++ [Ev.reserveCall pid p r.1] }

/-- State after a failed reserve (line 253): the peer joins the overdraft
list. -/
def odState (pid : ℕ) (st : RcState) : RcState :=
  { st with odlist := st.odlist.insert pid, evs := st.evs ++ [Ev.odAdd pid] }

/-- The body of the admission loop (lines 187-259): select the closest
eligible peer; on selection insert it into the skip-list, clamp
`max_error` to the accounting-table size, and attempt `reserve` when the
peer has a ledger entry (overdraft-listing it on failure); with no
eligible peer, give up when the overdraft list is empty, else refresh the
overdraft peers and go round again. -/
def innerStep (env : RcEnv) (st : RcState) : InnerOut :=
  match selectPeer env.po st.skiplist env.peers with
  | some (ov, pid) =>
    let p := env.price ov
    let st2 := selState pid st
    match lookupAcct st2.acct pid with
    | some a =>
      let r := reserve a p
      let st3 := reserveState pid p r st2
      if r.1 then InnerOut.gotPeer ov pid st3
      else InnerOut.again (odState pid st3)
    | none => InnerOut.again st2
  | none =>
    if st.odlist = [] then InnerOut.gaveUp st
    else InnerOut.again { st.odlist.foldl refreshStep st with odlist := [] }

/-- The admission loop (`while seer`), fuel-indexed; `some (some (ov,
pid), st)` is a successful reservation, `some (none, st)` is the
`return vec![]` of line 217. -/
def innerLoop (env : RcEnv) : ℕ → RcState → Option (Option (ℕ × ℕ) × RcState)
  | 0, _ => none
  | fuel + 1, st =>
    match innerStep env st with
    | InnerOut.gotPeer ov pid st' => some (some (ov, pid), st')
    | InnerOut.gaveUp st' => some (none, st')
    | InnerOut.again st' => innerLoop env fuel st'

/-- `cancel_reserve` under the table lock, guarded by `contains_key`
(lines 269-274, 280-284, 299-303). -/
def cancelIfPresent (pid p : ℕ) (st : RcState) : RcState :=
  match lookupAcct st.acct pid with
  | some a => { st with acct := updateAcct st.acct pid (cancel_reserve a p),
                        evs := st.evs ++ [Ev.cancelCall pid p] }
  | none => st

/-- `apply_credit` under the table lock, guarded by `contains_key`
(lines 306-310, 314-318). -/
def creditIfPresent (pid p : ℕ) (st : RcState) : RcState :=
  match lookupAcct st.acct pid with
  | some a => { st with acct := updateAcct st.acct pid (apply_credit a p),
                        evs := st.evs ++ [Ev.creditCall pid p] }
  | none => st

/-- The final return of `retrieve_chunk` (lines 326-330): a SOC-accepted
payload of at least `97 + 8` bytes is returned from offset 97, anything
else unmodified. -/
def finalValue (st : RcState) : Bytes :=
  if st.soc = true ∧ 97 + 8 ≤ st.cd.length then st.cd.drop 97 else st.cd

/-- State after `retrieve_handler` and `try_recv` (lines 263-267): the
handler call is recorded and the attempt counter advances. -/
def afterHandler (pid : ℕ) (st : RcState) : RcState :=
  { st with evs := st.evs ++ [Ev.handlerCall pid], attempts := st.attempts + 1 }

/-- State after a transport failure (lines 267-287): `cancel_reserve` in
the `is_err` block, then the `Err` match arm increments the error count,
calls `cancel_reserve` a second time, and clears the chunk buffer. -/
def afterTransportFail (pid p : ℕ) (st : RcState) : RcState :=
  let st3 := cancelIfPresent pid p st
  { cancelIfPresent pid p { st3 with errorCount := st3.errorCount + 1 } with cd := [] }

/-- State after received bytes are stored in `cd` (lines 276-277). -/
def afterBytes (bytes : Bytes) (st : RcState) : RcState := { st with cd := bytes }

/-- State after both validations failed (lines 296-304): the `soc` flag
holds the (false) `valid_soc` result, the error count advances, the
reservation is cancelled and the chunk buffer cleared. -/
def afterInvalid (pid p : ℕ) (st : RcState) : RcState :=
  { cancelIfPresent pid p { st with soc := false, errorCount := st.errorCount + 1 }
    with cd := [] }

/-- The outer payment/fetch loop (`while error_count < max_error`, lines
180-324), fuel-indexed per network attempt, with the admission loop run
on its own fuel each round. On a transport failure the code cancels the
reservation in the `is_err` block (lines 268-274) and then again inside
the `Err` match arm (lines 278-284) after incrementing the error count. -/
def outerLoop (env : RcEnv) (innerFuel : ℕ) : ℕ → RcState → Option (Bytes × RcState)
  | 0, _ => none
  | fuel + 1, st =>
    if st.errorCount < st.maxError then
      match innerLoop env innerFuel st with
      | none => none
      | some (none, st1) => some ([], st1)
      | some (some (ov, pid), st1) =>
        let p := env.price ov
        let st2 := afterHandler pid st1
        match env.exchange st1.attempts with
        | none => outerLoop env innerFuel fuel (afterTransportFail pid p st2)
        | some bytes =>
          let st3 := afterBytes bytes st2
          if env.vcac bytes then
            let st4 := creditIfPresent pid p st3
            some (finalValue st4, st4)
          else if env.vsoc bytes then
            let st4 := creditIfPresent pid p { st3 with soc := true }
            some (finalValue st4, st4)
          else outerLoop env innerFuel fuel (afterInvalid pid p st3)
    else some (finalValue st, st)

/-- The initial state (lines 161-178): empty skip-list and overdraft
list, `error_count = 0`, `max_error = 8`, empty chunk buffer. -/
def initState (acct : List (ℕ × PeerAccounting)) : RcState :=
  { soc := false, skiplist := [], odlist := [], errorCount := 0, maxError := 8,
    cd := [], acct := acct, attempts := 0, evs := [] }

/-- `retrieve_chunk` (lines 154-331): run the fetch state machine from
the initial state; `none` means a loop did not finish within the fuel. -/
def retrieve_chunk (env : RcEnv) (acct : List (ℕ × PeerAccounting))
    (outerFuel innerFuel : ℕ) : Option (Bytes × RcState) :=
  outerLoop env innerFuel outerFuel (initState acct)

/-! ## Step equations for the two loops -/

section StepEquations

variable {env : RcEnv} {st st1 : RcState} {ov pid : ℕ}

lemma innerStep_sel_none (hsel : selectPeer env.po st.skiplist env.peers = some (ov, pid))
    (hlk : lookupAcct st.acct pid = none) :
    innerStep env st = InnerOut.again (selState pid st) := by
  unfold innerStep
  rw [hsel]
  dsimp only
  rw [show lookupAcct (selState pid st).acct pid = none from hlk]

lemma innerStep_reserve_ok {a : PeerAccounting}
    (hsel : selectPeer env.po st.skiplist env.peers = some (ov, pid))
    (hlk : lookupAcct st.acct pid = some a)
    (hre : (reserve a (env.price ov)).1 = true) :
    innerStep env st = InnerOut.gotPeer ov pid
      (reserveState pid (env.price ov) (reserve a (env.price ov)) (selState pid st)) := by
  unfold innerStep
  rw [hsel]
  dsimp only
  rw [show lookupAcct (selState pid st).acct pid = some a from hlk]
  dsimp only
  rw [if_pos hre]

lemma innerStep_reserve_fail {a : PeerAccounting}
    (hsel : selectPeer env.po st.skiplist env.peers = some (ov, pid))
    (hlk : lookupAcct st.acct pid = some a)
    (hre : (reserve a (env.price ov)).1 = false) :
    innerStep env st = InnerOut.again (odState pid
      (reserveState pid (env.price ov) (reserve a (env.price ov)) (selState pid st))) := by
  unfold innerStep
  rw [hsel]
  dsimp only
  rw [show lookupAcct (selState pid st).acct pid = some a from hlk]
  dsimp only
  rw [if_neg (by rw [hre]; exact Bool.false_ne_true)]

lemma innerStep_none_gaveUp (hsel : selectPeer env.po st.skiplist env.peers = none)
    (hod : st.odlist = []) : innerStep env st = InnerOut.gaveUp st := by
  unfold innerStep
  rw [hsel]
  dsimp only
  rw [if_pos hod]

lemma innerStep_none_refresh (hsel : selectPeer env.po st.skiplist env.peers = none)
    (hod : ¬st.odlist = []) :
    innerStep env st = InnerOut.again { st.odlist.foldl refreshStep st with odlist := [] } := by
  unfold innerStep
  rw [hsel]
  dsimp only
  rw [if_neg hod]

variable {innerFuel fuel : ℕ}

lemma outerLoop_succ_stop (h : ¬st.errorCount < st.maxError) :
    outerLoop env innerFuel (fuel + 1) st = some (finalValue st, st) := by
  unfold outerLoop
  rw [if_neg h]

lemma outerLoop_succ_gaveUp (hcond : st.errorCount < st.maxError)
    (hil : innerLoop env innerFuel st = some (none, st1)) :
    outerLoop env innerFuel (fuel + 1) st = some ([], st1) := by
  unfold outerLoop
  rw [if_pos hcond, hil]

lemma outerLoop_succ_transport (hcond : st.errorCount < st.maxError)
    (hil : innerLoop env innerFuel st = some (some (ov, pid), st1))
    (hx : env.exchange st1.attempts = none) :
    outerLoop env innerFuel (fuel + 1) st =
      outerLoop env innerFuel fuel
        (afterTransportFail pid (env.price ov) (afterHandler pid st1)) := by
  conv_lhs => rw [outerLoop]
  rw [if_pos hcond, hil]
  dsimp only
  rw [hx]

lemma outerLoop_succ_cac {bytes : Bytes} (hcond : st.errorCount < st.maxError)
    (hil : innerLoop env innerFuel st = some (some (ov, pid), st1))
    (hx : env.exchange st1.attempts = some bytes)
    (hcac : env.vcac bytes = true) :
    outerLoop env innerFuel (fuel + 1) st =
      some (finalValue (creditIfPresent pid (env.price ov)
              (afterBytes bytes (afterHandler pid st1))),
            creditIfPresent pid (env.price ov) (afterBytes bytes (afterHandler pid st1))) := by
  unfold outerLoop
  rw [if_pos hcond, hil]
  dsimp only
  rw [hx]
  dsimp only
  rw [if_pos hcac]

lemma outerLoop_succ_soc {bytes : Bytes} (hcond : st.errorCount < st.maxError)
    (hil : innerLoop env innerFuel st = some (some (ov, pid), st1))
    (hx : env.exchange st1.attempts = some bytes)
    (hcac : env.vcac bytes = false) (hsoc : env.vsoc bytes = true) :
    outerLoop env innerFuel (fuel + 1) st =
      some (finalValue (creditIfPresent pid (env.price ov)
              { afterBytes bytes (afterHandler pid st1) with soc := true }),
            creditIfPresent pid (env.price ov)
              { afterBytes bytes (afterHandler pid st1) with soc := true }) := by
  unfold outerLoop
  rw [if_pos hcond, hil]
  dsimp only
  rw [hx]
  dsimp only
  rw [if_neg (by rw [hcac]; exact Bool.false_ne_true), if_pos hsoc]

lemma outerLoop_succ_invalid {bytes : Bytes} (hcond : st.errorCount < st.maxError)
    (hil : innerLoop env innerFuel st = some (some (ov, pid), st1))
    (hx : env.exchange st1.attempts = some bytes)
    (hcac : env.vcac bytes = false) (hsoc : env.vsoc bytes = false) :
    outerLoop env innerFuel (fuel + 1) st =
      outerLoop env innerFuel fuel
        (afterInvalid pid (env.price ov) (afterBytes bytes (afterHandler pid st1))) := by
  conv_lhs => rw [outerLoop]
  rw [if_pos hcond, hil]
  dsimp only
  rw [hx]
  dsimp only
  rw [if_neg (by rw [hcac]; exact Bool.false_ne_true),
    if_neg (by rw [hsoc]; exact Bool.false_ne_true)]

end StepEquations

/-! ## Concrete environments for the fetch-state-machine claims -/

/-- One payable peer (id 7, overlay 0, price 1, credit limit 10); every
network exchange fails in transport. -/
def envFail : RcEnv :=
  ⟨fun _ => 0, fun _ => 1, fun _ => none, fun _ => false, fun _ => false, [(0, 7)]⟩

/-- Accounting table with a ledger for peer 7. -/
def acctOne : List (ℕ × PeerAccounting) := [(7, ⟨0, 0, 10⟩)]

/-- Accounting table whose only ledger belongs to a peer (5) that is not
in the peer table. -/
def acctOther : List (ℕ × PeerAccounting) := [(5, ⟨0, 0, 10⟩)]

/-- Claim C1, evaluated at the failing input: with one payable peer and a
transport that always fails, the one successful reservation is cancelled
twice — once by the `is_err` block (lines 268-274) and once more inside
the `Err` match arm (lines 278-284) — and never committed, refuting
"exactly one of commit/cancel per successful reserve". -/
theorem claim_C1 :
    (retrieve_chunk envFail acctOne 2 2).map (fun r =>
      (r.1, r.2.evs.count (Ev.reserveCall 7 1 true), r.2.evs.count (Ev.cancelCall 7 1),
        r.2.evs.count (Ev.creditCall 7 1))) = some ([], 1, 2, 0) := by decide

/-- Counterexample to C8: when the selected peer (7) has no ledger entry,
the run's whole trace is `[skipAdd 7]` — the peer *is* added to the
skip-list (the claim says it is not); the overdraft list and the error
count are indeed untouched, and the attempt then gives up. -/
theorem claim_C8_counterexample :
    (retrieve_chunk envFail acctOther 1 3).map (fun r =>
      (r.1, r.2.evs, r.2.errorCount, r.2.odlist)) =
      some ([], [Ev.skipAdd 7], 0, []) := by decide

/-- Claim C8 (amended): when the selected peer has no accounting entry,
the admission iteration adds it to the skip-list (and clamps
`max_error`), adds nothing to the overdraft list, leaves the error
count, the ledgers and the chunk buffer unchanged, performs no reserve
call and no other event, and loops back to peer selection. -/
theorem claim_C8_amended (env : RcEnv) (st : RcState) (ov pid : ℕ)
    (hsel : selectPeer env.po st.skiplist env.peers = some (ov, pid))
    (hacct : lookupAcct st.acct pid = none) :
    innerStep env st = InnerOut.again
      { st with skiplist := pid :: st.skiplist,
                maxError := if st.acct.length < st.maxError then st.acct.length
                            else st.maxError,
                evs := st.evs ++ [Ev.skipAdd pid] } :=
  innerStep_sel_none hsel hacct

/-- Witness for C8 (amended): the concrete no-ledger iteration. -/
theorem claim_C8_witness :
    innerStep envFail (initState acctOther) =
      InnerOut.again ⟨false, [7], [], 0, 1, [], acctOther, 0, [Ev.skipAdd 7]⟩ :=
  (claim_C8_amended envFail (initState acctOther) 0 7 (by decide) (by decide)).trans
    (by decide)

/-- One poor peer (credit limit 0): the first reserve fails, the refresh
round restores headroom, the second reserve succeeds and the exchange
delivers CAC-valid bytes. -/
def envRefresh : RcEnv :=
  ⟨fun _ => 0, fun _ => 1, fun _ => some [1, 2, 3], fun _ => true, fun _ => false, [(0, 7)]⟩

/-- Accounting table with a zero-credit ledger for peer 7. -/
def acctPoor : List (ℕ × PeerAccounting) := [(7, ⟨0, 0, 0⟩)]

/-- Counterexample to C7: an invocation that terminates (returning the
validated bytes) in whose trace peer 7 was removed from the skip-list
mid-attempt, during the overdraft refresh of lines 219-223 — the
skip-list does not only grow. -/
theorem claim_C7_counterexample :
    (retrieve_chunk envRefresh acctPoor 1 4).map (fun r =>
      (r.1, r.2.evs.count (Ev.skipRemove 7))) = some ([1, 2, 3], 1) := by decide

/-! ## Termination of the admission loop without ledgers (claim C10) -/

/-- The number of peer-table entries not yet skip-listed. -/
def eligCount (peers : List (ℕ × ℕ)) (skiplist : List ℕ) : ℕ :=
  peers.countP fun e => decide (e.2 ∉ skiplist)

lemma countP_le_countP {α : Type} (l : List α) (p q : α → Bool)
    (hpq : ∀ x ∈ l, p x = true → q x = true) : l.countP p ≤ l.countP q := by
  induction l with
  | nil => exact le_refl _
  | cons a t ih =>
    rw [List.countP_cons, List.countP_cons]
    have ht := ih fun x hx => hpq x (List.mem_cons_of_mem a hx)
    by_cases hpa : p a = true
    · rw [hpa, hpq a (List.mem_cons_self a t) hpa]
      omega
    · have : p a = false := Bool.not_eq_true _ ▸ hpa
      rw [this]
      simp only [Bool.false_eq_true, if_false]
      cases q a <;> simp <;> omega

lemma countP_lt_countP {α : Type} (l : List α) (p q : α → Bool)
    (hpq : ∀ x ∈ l, p x = true → q x = true) {x0 : α} (hx0 : x0 ∈ l)
    (hq : q x0 = true) (hp : p x0 = false) :
    l.countP p < l.countP q := by
  induction l with
  | nil => simp at hx0
  | cons a t ih =>
    rw [List.countP_cons, List.countP_cons]
    have hpq' : ∀ x ∈ t, p x = true → q x = true :=
      fun x hx => hpq x (List.mem_cons_of_mem a hx)
    rcases List.mem_cons.mp hx0 with rfl | hmem
    · rw [hp, hq]
      have := countP_le_countP t p q hpq'
      simp only [Bool.false_eq_true, if_false, if_true]
      omega
    · have hlt := ih hpq' hmem
      by_cases hpa : p a = true
      · rw [hpa, hpq a (List.mem_cons_self a t) hpa]
        omega
      · have : p a = false := Bool.not_eq_true _ ▸ hpa
        rw [this]
        simp only [Bool.false_eq_true, if_false]
        cases q a <;> simp <;> omega

lemma eligCount_cons_lt {peers : List (ℕ × ℕ)} {skiplist : List ℕ} {ov pid : ℕ}
    (hmem : (ov, pid) ∈ peers) (hnsk : pid ∉ skiplist) :
    eligCount peers (pid :: skiplist) < eligCount peers skiplist := by
  refine countP_lt_countP peers _ _ ?_ hmem ?_ ?_
  · intro x _ hx
    simp only [decide_eq_true_eq] at hx ⊢
    intro hmemx
    exact hx (List.mem_cons_of_mem pid hmemx)
  · simp only [decide_eq_true_eq]
    exact hnsk
  · simp only [decide_eq_false_iff_not, Decidable.not_not]
    exact List.mem_cons_self pid skiplist

lemma eligCount_le_length (peers : List (ℕ × ℕ)) (skiplist : List ℕ) :
    eligCount peers skiplist ≤ peers.length :=
  List.countP_le_length _

/-- With no selectable peer owning a ledger entry, the admission loop
only inserts peers into the skip-list, one per iteration, and gives up
with the table exhausted: no reserve, no overdraft, no error. -/
lemma innerLoop_no_ledger (env : RcEnv) :
    ∀ (fuel : ℕ) (st : RcState),
      (∀ e ∈ env.peers, lookupAcct st.acct e.2 = none) →
      st.odlist = [] →
      eligCount env.peers st.skiplist < fuel →
      ∃ st', innerLoop env fuel st = some (none, st') ∧
        (∃ delta, st'.evs = st.evs ++ delta ∧
          (∀ ev ∈ delta, ∃ pid, ev = Ev.skipAdd pid) ∧
          delta.length ≤ eligCount env.peers st.skiplist) ∧
        st'.errorCount = st.errorCount ∧ st'.attempts = st.attempts ∧
        st'.acct = st.acct ∧ st'.cd = st.cd := by
  intro fuel
  induction fuel with
  | zero => intro st _ _ h; omega
  | succ n ih =>
    intro st hacct hod hlt
    cases hsel : selectPeer env.po st.skiplist env.peers with
    | none =>
      refine ⟨st, ?_, ⟨[], by simp, by simp, Nat.zero_le _⟩, rfl, rfl, rfl, rfl⟩
      simp [innerLoop, innerStep, hsel, hod]
    | some pr =>
      obtain ⟨ov, pid⟩ := pr
      obtain ⟨hnsk, hmem, -⟩ := selectPeer_some hsel
      have hlk : lookupAcct st.acct pid = none := hacct (ov, pid) hmem
      have hstep := innerStep_sel_none hsel hlk
      have hloop : innerLoop env (n + 1) st = innerLoop env n (selState pid st) := by
        simp [innerLoop, hstep]
      have helig := eligCount_cons_lt hmem hnsk
      obtain ⟨st', hrun, ⟨delta, hevs, hdel, hdlen⟩, he, ha, hac, hcd⟩ :=
        ih (selState pid st) hacct hod
          (by show eligCount env.peers (pid :: st.skiplist) < n; omega)
      refine ⟨st', by rw [hloop]; exact hrun,
        ⟨Ev.skipAdd pid :: delta, ?_, ?_, ?_⟩, he, ha, hac, hcd⟩
      · rw [hevs]
        simp [selState]
      · intro ev hev
        rcases List.mem_cons.mp hev with rfl | hmemd
        · exact ⟨pid, rfl⟩
        · exact hdel ev hmemd
      · have hdlen' : delta.length ≤ eligCount env.peers (pid :: st.skiplist) := hdlen
        simp only [List.length_cons]
        omega

-- the Bool test used to state claim C10 without binders in the witness
/-- Whether an event is a skip-list insertion. -/
def isSkipAdd : Ev → Bool
  | Ev.skipAdd _ => true
  | _ => false

/-- Claim C10: when no peer of the table has an accounting ledger entry —
including the empty table — `retrieve_chunk` terminates within a single
pass of the admission loop (inner fuel `|peers| + 1`, one skip-list
insertion per table entry at most, and every event of the run is such an
insertion), returns the empty byte string, never calls the network
handler (`attempts = 0`), and consumes no error budget. -/
theorem claim_C10 (env : RcEnv) (acct : List (ℕ × PeerAccounting))
    (h : ∀ e ∈ env.peers, lookupAcct acct e.2 = none) :
    (retrieve_chunk env acct 1 (env.peers.length + 1)).map (fun r =>
      (r.1, r.2.evs.all isSkipAdd, decide (r.2.evs.length ≤ env.peers.length),
        r.2.errorCount, r.2.attempts)) = some ([], true, true, 0, 0) := by
  obtain ⟨st', hrun, ⟨delta, hevs, hdel, hdlen⟩, he, ha, -, -⟩ :=
    innerLoop_no_ledger env (env.peers.length + 1) (initState acct) h rfl
      (Nat.lt_succ_of_le (eligCount_le_length _ _))
  have hout : retrieve_chunk env acct 1 (env.peers.length + 1) = some ([], st') := by
    unfold retrieve_chunk outerLoop
    rw [if_pos (show (initState acct).errorCount < (initState acct).maxError by
      simp [initState]), hrun]
  rw [hout]
  simp only [Option.map_some']
  have hevs' : st'.evs = delta := by
    rw [hevs]
    rfl
  refine congrArg some ?_
  refine Prod.ext rfl (Prod.ext ?_ (Prod.ext ?_ (Prod.ext ?_ ?_))) <;> simp only []
  · rw [hevs']
    exact List.all_eq_true.mpr fun ev hev => by
      obtain ⟨pid, rfl⟩ := hdel ev hev
      rfl
  · rw [hevs']
    exact decide_eq_true (hdlen.trans (eligCount_le_length _ _))
  · exact he
  · exact ha

/-- Witness for C10: a two-peer table with a ledgerless accounting map. -/
def envNoLedger : RcEnv :=
  ⟨fun _ => 0, fun _ => 1, fun _ => none, fun _ => false, fun _ => false, [(0, 7), (1, 9)]⟩

/-- Witness for C10: the concrete no-ledger run terminates at once with
an empty result, only skip-list insertions, and zero handler calls. -/
theorem claim_C10_witness :
    (retrieve_chunk envNoLedger acctOther 1 3).map (fun r =>
      (r.1, r.2.evs.all isSkipAdd, decide (r.2.evs.length ≤ 2),
        r.2.errorCount, r.2.attempts)) = some ([], true, true, 0, 0) :=
  claim_C10 envNoLedger acctOther (by decide)

/-! ## The SOC acceptance path (claim C6) -/

/-- The `soc` flag carried by an admission-loop outcome. -/
def InnerOut.socOf : InnerOut → Bool
  | InnerOut.gotPeer _ _ s => s.soc
  | InnerOut.gaveUp s => s.soc
  | InnerOut.again s => s.soc

lemma refreshStep_soc (s : RcState) (k : ℕ) : (refreshStep s k).soc = s.soc := rfl

lemma foldl_refreshStep_soc (ks : List ℕ) :
    ∀ st : RcState, (ks.foldl refreshStep st).soc = st.soc := by
  induction ks with
  | nil => intro st; rfl
  | cons k t ih => intro st; rw [List.foldl_cons, ih, refreshStep_soc]

/-- The admission loop never touches the `soc` flag. -/
lemma innerStep_socOf (env : RcEnv) (st : RcState) :
    (innerStep env st).socOf = st.soc := by
  cases hsel : selectPeer env.po st.skiplist env.peers with
  | none =>
    by_cases hod : st.odlist = []
    · rw [innerStep_none_gaveUp hsel hod]
      rfl
    · rw [innerStep_none_refresh hsel hod]
      show ({ st.odlist.foldl refreshStep st with odlist := [] }).soc = st.soc
      show (st.odlist.foldl refreshStep st).soc = st.soc
      exact foldl_refreshStep_soc _ st
  | some pr =>
    obtain ⟨ov, pid⟩ := pr
    cases hlk : lookupAcct st.acct pid with
    | none =>
      rw [innerStep_sel_none hsel hlk]
      rfl
    | some a =>
      cases hre : (reserve a (env.price ov)).1 with
      | true =>
        rw [innerStep_reserve_ok hsel hlk hre]
        rfl
      | false =>
        rw [innerStep_reserve_fail hsel hlk hre]
        rfl

lemma innerLoop_soc (env : RcEnv) :
    ∀ (fuel : ℕ) (st : RcState) (r : Option (ℕ × ℕ)) (st' : RcState),
      innerLoop env fuel st = some (r, st') → st'.soc = st.soc := by
  intro fuel
  induction fuel with
  | zero => intro st r st' h; simp [innerLoop] at h
  | succ n ih =>
    intro st r st' h
    have hsoc := innerStep_socOf env st
    unfold innerLoop at h
    cases hstep : innerStep env st with
    | gotPeer ov pid s =>
      rw [hstep] at h hsoc
      simp only [Option.some.injEq, Prod.mk.injEq] at h
      rw [← h.2]
      exact hsoc
    | gaveUp s =>
      rw [hstep] at h hsoc
      simp only [Option.some.injEq, Prod.mk.injEq] at h
      rw [← h.2]
      exact hsoc
    | again s =>
      rw [hstep] at h hsoc
      exact (ih s r st' h).trans hsoc

lemma cancelIfPresent_soc (pid p : ℕ) (st : RcState) :
    (cancelIfPresent pid p st).soc = st.soc := by
  unfold cancelIfPresent
  split <;> rfl

lemma cancelIfPresent_cd (pid p : ℕ) (st : RcState) :
    (cancelIfPresent pid p st).cd = st.cd := by
  unfold cancelIfPresent
  split <;> rfl

lemma creditIfPresent_soc (pid p : ℕ) (st : RcState) :
    (creditIfPresent pid p st).soc = st.soc := by
  unfold creditIfPresent
  split <;> rfl

lemma creditIfPresent_cd (pid p : ℕ) (st : RcState) :
    (creditIfPresent pid p st).cd = st.cd := by
  unfold creditIfPresent
  split <;> rfl

lemma afterHandler_soc (pid : ℕ) (st : RcState) : (afterHandler pid st).soc = st.soc := rfl

lemma afterBytes_soc (bytes : Bytes) (st : RcState) :
    (afterBytes bytes st).soc = st.soc := rfl

lemma afterTransportFail_soc (pid p : ℕ) (st : RcState) :
    (afterTransportFail pid p st).soc = st.soc := by
  unfold afterTransportFail
  dsimp only
  rw [cancelIfPresent_soc]
  dsimp only
  rw [cancelIfPresent_soc]

lemma afterInvalid_soc (pid p : ℕ) (st : RcState) :
    (afterInvalid pid p st).soc = false := by
  unfold afterInvalid
  dsimp only
  rw [cancelIfPresent_soc]

/-- Runs that end with the `soc` flag set were accepted by `valid_soc`
after `valid_cac` failed, and return `finalValue` of the final state. -/
lemma outerLoop_soc_result (env : RcEnv) (innerFuel : ℕ) :
    ∀ (fuel : ℕ) (st : RcState) (res : Bytes) (st' : RcState),
      st.soc = false →
      outerLoop env innerFuel fuel st = some (res, st') →
      st'.soc = true →
      env.vcac st'.cd = false ∧ env.vsoc st'.cd = true ∧ res = finalValue st' := by
  intro fuel
  induction fuel with
  | zero => intro st res st' _ h _; simp [outerLoop] at h
  | succ n ih =>
    intro st res st' hsoc h hsoc'
    by_cases hcond : st.errorCount < st.maxError
    · cases hil : innerLoop env innerFuel st with
      | none =>
        rw [outerLoop] at h
        rw [if_pos hcond, hil] at h
        exact absurd h (by simp)
      | some pr =>
        obtain ⟨sel, st1⟩ := pr
        have hst1soc : st1.soc = false :=
          (innerLoop_soc env innerFuel st sel st1 hil).trans hsoc
        cases sel with
        | none =>
          rw [outerLoop_succ_gaveUp hcond hil] at h
          simp only [Option.some.injEq, Prod.mk.injEq] at h
          rw [← h.2] at hsoc'
          rw [hst1soc] at hsoc'
          exact Bool.noConfusion hsoc'
        | some pr2 =>
          obtain ⟨ov, pid⟩ := pr2
          cases hx : env.exchange st1.attempts with
          | none =>
            rw [outerLoop_succ_transport hcond hil hx] at h
            refine ih _ res st' ?_ h hsoc'
            rw [afterTransportFail_soc, afterHandler_soc]
            exact hst1soc
          | some bytes =>
            cases hcac : env.vcac bytes with
            | true =>
              rw [outerLoop_succ_cac hcond hil hx hcac] at h
              simp only [Option.some.injEq, Prod.mk.injEq] at h
              exfalso
              rw [← h.2, creditIfPresent_soc] at hsoc'
              exact Bool.noConfusion ((hst1soc ▸ hsoc' : (false : Bool) = true))
            | false =>
              cases hsocv : env.vsoc bytes with
              | true =>
                rw [outerLoop_succ_soc hcond hil hx hcac hsocv] at h
                simp only [Option.some.injEq, Prod.mk.injEq] at h
                have hcd : st'.cd = bytes := by
                  rw [← h.2, creditIfPresent_cd]
                  rfl
                refine ⟨?_, ?_, ?_⟩
                · rw [hcd]
                  exact hcac
                · rw [hcd]
                  exact hsocv
                · rw [← h.1, ← h.2]
              | false =>
                rw [outerLoop_succ_invalid hcond hil hx hcac hsocv] at h
                refine ih _ res st' ?_ h hsoc'
                exact afterInvalid_soc _ _ _
    · rw [outerLoop_succ_stop hcond] at h
      simp only [Option.some.injEq, Prod.mk.injEq] at h
      rw [← h.2] at hsoc'
      rw [hsoc] at hsoc'
      exact Bool.noConfusion hsoc'

/-- Claim C6 (amended): a terminating fetch whose final state is
SOC-accepted (the `valid_cac` check failed and `valid_soc` passed on the
received bytes) returns the payload from offset 97 when the payload is at
least `97 + 8` bytes long, and the whole payload unmodified otherwise. -/
theorem claim_C6_amended (env : RcEnv) (acct : List (ℕ × PeerAccounting))
    (outerFuel innerFuel : ℕ) (res : Bytes) (st' : RcState)
    (hrun : retrieve_chunk env acct outerFuel innerFuel = some (res, st'))
    (hsoc : st'.soc = true) :
    env.vcac st'.cd = false ∧ env.vsoc st'.cd = true ∧
      res = if 97 + 8 ≤ st'.cd.length then st'.cd.drop 97 else st'.cd := by
  obtain ⟨h1, h2, h3⟩ :=
    outerLoop_soc_result env innerFuel outerFuel (initState acct) res st' rfl hrun hsoc
  refine ⟨h1, h2, ?_⟩
  rw [h3]
  unfold finalValue
  by_cases hl : 97 + 8 ≤ st'.cd.length
  · rw [if_pos ⟨hsoc, hl⟩, if_pos hl]
  · rw [if_neg (by intro hc; exact hl hc.2), if_neg hl]

/-- One payable peer returning a 100-byte SOC-validated payload. -/
def envSocShort : RcEnv :=
  ⟨fun _ => 0, fun _ => 1, fun _ => some (List.replicate 100 1), fun _ => false,
    fun _ => true, [(0, 7)]⟩

/-- Counterexample to C6: a 100-byte payload accepted via SOC validation
is returned whole — not from offset 97 as the claim states — because the
`cd.len() >= 97 + 8` guard of line 326 fails. -/
theorem claim_C6_counterexample :
    (retrieve_chunk envSocShort acctOne 1 2).map (fun r => (r.1, r.2.soc)) =
      some (List.replicate 100 1, true) ∧
    decide (List.replicate 100 1 = (List.replicate 100 1).drop 97) = false := by
  constructor
  · decide
  · decide

/-- One payable peer returning a 105-byte SOC-validated payload. -/
def envSoc : RcEnv :=
  ⟨fun _ => 0, fun _ => 1, fun _ => some (List.replicate 105 2), fun _ => false,
    fun _ => true, [(0, 7)]⟩

/-- The final state of the 105-byte SOC run. -/
def stSoc : RcState :=
  ⟨true, [7], [], 0, 1, List.replicate 105 2, [(7, ⟨0, 1, 10⟩)], 1,
    [Ev.skipAdd 7, Ev.reserveCall 7 1 true, Ev.handlerCall 7, Ev.creditCall 7 1]⟩

/-- Witness for C6 (amended): the 105-byte SOC-accepted payload comes
back stripped of its 97-byte header. -/
theorem claim_C6_witness :
    envSoc.vcac stSoc.cd = false ∧ envSoc.vsoc stSoc.cd = true ∧
      (List.replicate 105 2).drop 97 =
        if 97 + 8 ≤ stSoc.cd.length then stSoc.cd.drop 97 else stSoc.cd :=
  claim_C6_amended envSoc acctOne 1 2 ((List.replicate 105 2).drop 97) stSoc
    (by decide) rfl

/-! ## The skip-list removal discipline (claim C7)

Peer removals from the skip-list happen only in the overdraft refresh of
lines 219-223. We count, at every point of the event trace, the removals
of a peer, its overdraft listings, and its failed reserves, and show the
chain of inequalities removals <= overdraft listings <= failed reserves
throughout every terminating run. -/

/-- Number of skip-list removals of peer `p` in a trace. -/
def remCount (p : ℕ) (evs : List Ev) : ℕ := evs.count (Ev.skipRemove p)

/-- Number of overdraft listings of peer `p` in a trace. -/
def odCount (p : ℕ) (evs : List Ev) : ℕ := evs.count (Ev.odAdd p)

/-- Number of failed reserve calls for peer `p` in a trace. -/
def failCount (p : ℕ) (evs : List Ev) : ℕ :=
  evs.countP fun e => match e with
    | Ev.reserveCall q _ ok => decide (q = p) && !ok
    | _ => false

/-- At every point of the trace, removals of a peer never outnumber its
overdraft listings, which never outnumber its failed reserves. -/
def PrefixSafe (evs : List Ev) : Prop :=
  ∀ p n, remCount p (evs.take n) ≤ odCount p (evs.take n) ∧
    odCount p (evs.take n) ≤ failCount p (evs.take n)

lemma remCount_append (p : ℕ) (l₁ l₂ : List Ev) :
    remCount p (l₁ ++ l₂) = remCount p l₁ + remCount p l₂ :=
  List.count_append _ l₁ l₂

lemma odCount_append (p : ℕ) (l₁ l₂ : List Ev) :
    odCount p (l₁ ++ l₂) = odCount p l₁ + odCount p l₂ :=
  List.count_append _ l₁ l₂

lemma failCount_append (p : ℕ) (l₁ l₂ : List Ev) :
    failCount p (l₁ ++ l₂) = failCount p l₁ + failCount p l₂ :=
  List.countP_append _ l₁ l₂

/-- Appending one event preserves prefix safety provided the new totals
stay ordered. -/
lemma prefixSafe_snoc {evs : List Ev} (e : Ev) (hP : PrefixSafe evs)
    (h : ∀ p, remCount p evs + remCount p [e] ≤ odCount p evs + odCount p [e] ∧
      odCount p evs + odCount p [e] ≤ failCount p evs + failCount p [e]) :
    PrefixSafe (evs ++ [e]) := by
  intro p n
  rw [List.take_append_eq_append_take]
  by_cases hn : n ≤ evs.length
  · rw [Nat.sub_eq_zero_of_le hn]
    simp only [List.take_zero, List.append_nil]
    exact hP p n
  · rw [List.take_of_length_le (by omega),
      List.take_of_length_le (by simp only [List.length_cons, List.length_nil]; omega)]
    rw [remCount_append, odCount_append, failCount_append]
    exact h p

/-- Prefix safety at the full trace. -/
lemma PrefixSafe.full {evs : List Ev} (hP : PrefixSafe evs) (p : ℕ) :
    remCount p evs ≤ odCount p evs ∧ odCount p evs ≤ failCount p evs := by
  have := hP p evs.length
  rwa [List.take_of_length_le (le_refl _)] at this

/-- An event that is neither a removal, an overdraft listing, nor able to
decrease the failed-reserve count preserves prefix safety. -/
lemma prefixSafe_snoc_neutral {evs : List Ev} (e : Ev) (hP : PrefixSafe evs)
    (hrem : ∀ p, remCount p [e] = 0) (hod : ∀ p, odCount p [e] = 0) :
    PrefixSafe (evs ++ [e]) := by
  refine prefixSafe_snoc e hP fun p => ?_
  rw [hrem p, hod p]
  have := hP.full p
  omega

lemma remCount_single_ne {p : ℕ} {e : Ev} (h : ∀ q, e ≠ Ev.skipRemove q) :
    remCount p [e] = 0 := by
  simp only [remCount, List.count_singleton']
  rw [if_neg (h p)]

lemma odCount_single_ne {p : ℕ} {e : Ev} (h : ∀ q, e ≠ Ev.odAdd q) :
    odCount p [e] = 0 := by
  simp only [odCount, List.count_singleton']
  rw [if_neg (h p)]

lemma remCount_single (q k : ℕ) :
    remCount q [Ev.skipRemove k] = if k = q then 1 else 0 := by
  simp only [remCount, List.count_singleton']
  by_cases h : k = q
  · rw [if_pos (by rw [h]), if_pos h]
  · rw [if_neg (fun hc => h (by injection hc)), if_neg h]

lemma odCount_single (q pid : ℕ) :
    odCount q [Ev.odAdd pid] = if pid = q then 1 else 0 := by
  simp only [odCount, List.count_singleton']
  by_cases h : pid = q
  · rw [if_pos (by rw [h]), if_pos h]
  · rw [if_neg (fun hc => h (by injection hc)), if_neg h]

lemma failCount_single (q pid pr : ℕ) (ok : Bool) :
    failCount q [Ev.reserveCall pid pr ok] = if pid = q ∧ ok = false then 1 else 0 := by
  simp only [failCount, List.countP_cons, List.countP_nil]
  by_cases h : pid = q
  · cases ok
    · simp [h]
    · simp [h]
  · simp [h]

lemma failCount_single_other {q : ℕ} {e : Ev}
    (h : ∀ a b c, e ≠ Ev.reserveCall a b c) : failCount q [e] = 0 := by
  cases e <;> first | rfl | exact absurd rfl (h _ _ _)

/-- The run invariant relating the overdraft list and the counts: the
overdraft list is duplicate-free, contained in the skip-list, and carries
exactly the overdraft listings not yet consumed by a removal; overdraft
listings never outnumber failed reserves; and the trace is prefix-safe. -/
def OdInv (od sk : List ℕ) (evs : List Ev) : Prop :=
  od.Nodup ∧ (∀ p ∈ od, p ∈ sk) ∧
  (∀ p, odCount p evs = remCount p evs + (if p ∈ od then 1 else 0)) ∧
  (∀ p, odCount p evs ≤ failCount p evs) ∧
  PrefixSafe evs

/-- The invariant read off a machine state. -/
abbrev OdInvSt (st : RcState) : Prop := OdInv st.odlist st.skiplist st.evs

lemma odInv_init : OdInv [] [] [] := by
  refine ⟨List.nodup_nil, by simp, ?_, ?_, ?_⟩
  · intro p
    simp [odCount, remCount]
  · intro p
    exact le_refl _
  · intro p n
    simp [remCount, odCount, failCount]

lemma odInv_neutral {od sk : List ℕ} {evs : List Ev} (hinv : OdInv od sk evs) (e : Ev)
    (hrem : ∀ p, remCount p [e] = 0) (hod : ∀ p, odCount p [e] = 0) :
    OdInv od sk (evs ++ [e]) := by
  obtain ⟨h1, h2, h3, h4, h5⟩ := hinv
  refine ⟨h1, h2, ?_, ?_, prefixSafe_snoc_neutral e h5 hrem hod⟩
  · intro p
    rw [odCount_append, remCount_append, hrem p, hod p]
    have := h3 p
    omega
  · intro p
    rw [odCount_append, failCount_append, hod p]
    have := h4 p
    omega

lemma odInv_grow {od sk : List ℕ} {evs : List Ev} (x : ℕ) (hinv : OdInv od sk evs) :
    OdInv od (x :: sk) evs := by
  obtain ⟨h1, h2, h3, h4, h5⟩ := hinv
  exact ⟨h1, fun p hp => List.mem_cons_of_mem x (h2 p hp), h3, h4, h5⟩

/-- The overdraft-listing step: appending `odAdd pid` right after that
peer's failed reserve record. -/
lemma odInv_odAdd {od sk : List ℕ} {evs : List Ev} {pid : ℕ}
    (hinv : OdInv od sk evs) (hnod : pid ∉ od) (hsk : pid ∈ sk)
    (hfail : odCount pid evs + 1 ≤ failCount pid evs) :
    OdInv (pid :: od) sk (evs ++ [Ev.odAdd pid]) := by
  obtain ⟨h1, h2, h3, h4, h5⟩ := hinv
  refine ⟨List.nodup_cons.mpr ⟨hnod, h1⟩, ?_, ?_, ?_, ?_⟩
  · intro p hp
    rcases List.mem_cons.mp hp with rfl | hp2
    · exact hsk
    · exact h2 p hp2
  · intro p
    rw [odCount_append, remCount_append, odCount_single,
      remCount_single_ne (fun q => by simp)]
    by_cases hp : pid = p
    · subst hp
      rw [if_pos rfl, if_pos (List.mem_cons_self pid od)]
      have := h3 pid
      rw [if_neg hnod] at this
      omega
    · rw [if_neg hp]
      have hiff : p ∈ pid :: od ↔ p ∈ od := by
        constructor
        · intro hc
          rcases List.mem_cons.mp hc with rfl | hc2
          · exact absurd rfl hp
          · exact hc2
        · exact List.mem_cons_of_mem pid
      have := h3 p
      by_cases hpod : p ∈ od
      · rw [if_pos (hiff.mpr hpod)]
        rw [if_pos hpod] at this
        omega
      · rw [if_neg (fun hc => hpod (hiff.mp hc))]
        rw [if_neg hpod] at this
        omega
  · intro p
    rw [odCount_append, failCount_append, odCount_single,
      failCount_single_other]
    · by_cases hp : pid = p
      · subst hp
        rw [if_pos rfl]
        omega
      · rw [if_neg hp]
        have := h4 p
        omega
    · intro a b c hc
      exact Ev.noConfusion hc
  · refine prefixSafe_snoc (Ev.odAdd pid) h5 fun p => ?_
    rw [odCount_single, remCount_single_ne (fun q => by simp),
      failCount_single_other (fun a b c hc => Ev.noConfusion hc)]
    by_cases hp : pid = p
    · subst hp
      rw [if_pos rfl]
      have := h5.full pid
      omega
    · rw [if_neg hp]
      have := h5.full p
      omega

/-- The refresh fold: per overdraft peer, a refresh request and a
skip-list removal; the counts change accordingly and the trace stays
prefix-safe. -/
lemma refreshFold_counts (ks : List ℕ) :
    ∀ st : RcState, ks.Nodup →
      (∀ k ∈ ks, odCount k st.evs = remCount k st.evs + 1) →
      PrefixSafe st.evs →
      PrefixSafe (ks.foldl refreshStep st).evs ∧
      (∀ p, odCount p (ks.foldl refreshStep st).evs = odCount p st.evs) ∧
      (∀ p, failCount p (ks.foldl refreshStep st).evs = failCount p st.evs) ∧
      (∀ p, remCount p (ks.foldl refreshStep st).evs =
        remCount p st.evs + (if p ∈ ks then 1 else 0)) ∧
      (ks.foldl refreshStep st).odlist = st.odlist := by
  induction ks with
  | nil =>
    intro st _ _ hP
    exact ⟨hP, fun p => rfl, fun p => rfl, fun p => by simp, rfl⟩
  | cons k t ih =>
    intro st hnd hodk hP
    have hnd' := List.nodup_cons.mp hnd
    have hevs1 : (refreshStep st k).evs =
        (st.evs ++ [Ev.refreshReq k]) ++ [Ev.skipRemove k] := by
      show st.evs ++ [Ev.refreshReq k, Ev.skipRemove k] = _
      simp
    have hP1 : PrefixSafe (refreshStep st k).evs := by
      rw [hevs1]
      refine prefixSafe_snoc (Ev.skipRemove k)
        (prefixSafe_snoc_neutral (Ev.refreshReq k) hP
          (fun p => remCount_single_ne (fun q => by simp))
          (fun p => odCount_single_ne (fun q => by simp))) fun p => ?_
      rw [remCount_single, odCount_single_ne (fun q => by simp),
        failCount_single_other (fun a b c hc => Ev.noConfusion hc)]
      rw [remCount_append, odCount_append, failCount_append,
        remCount_single_ne (fun q => by simp),
        odCount_single_ne (fun q => by simp),
        failCount_single_other (fun a b c hc => Ev.noConfusion hc)]
      by_cases hp : k = p
      · subst hp
        rw [if_pos rfl]
        have := hodk k (List.mem_cons_self k t)
        have := (hP.full k).2
        omega
      · rw [if_neg hp]
        have h1 := hP.full p
        omega
    have hodc1 : ∀ p, odCount p (refreshStep st k).evs = odCount p st.evs := by
      intro p
      rw [hevs1, odCount_append, odCount_append,
        odCount_single_ne (fun q => by simp), odCount_single_ne (fun q => by simp)]
      omega
    have hfc1 : ∀ p, failCount p (refreshStep st k).evs = failCount p st.evs := by
      intro p
      rw [hevs1, failCount_append, failCount_append,
        failCount_single_other (fun a b c hc => Ev.noConfusion hc),
        failCount_single_other (fun a b c hc => Ev.noConfusion hc)]
      omega
    have hrc1 : ∀ p, remCount p (refreshStep st k).evs =
        remCount p st.evs + (if k = p then 1 else 0) := by
      intro p
      rw [hevs1, remCount_append, remCount_append,
        remCount_single_ne (fun q => by simp), remCount_single]
      omega
    obtain ⟨hPf, hodf, hfcf, hrcf, hodlf⟩ := ih (refreshStep st k) hnd'.2
      (fun k' hk' => by
        rw [hodc1 k', hrc1 k', if_neg (fun (hc : k = k') => hnd'.1 (hc ▸ hk'))]
        have := hodk k' (List.mem_cons_of_mem k hk')
        omega)
      hP1
    rw [List.foldl_cons]
    refine ⟨hPf, ?_, ?_, ?_, ?_⟩
    · intro p
      rw [hodf p, hodc1 p]
    · intro p
      rw [hfcf p, hfc1 p]
    · intro p
      rw [hrcf p, hrc1 p]
      by_cases hp : p ∈ t
      · have hkp : ¬k = p := fun hc => hnd'.1 (hc ▸ hp)
        rw [if_pos hp, if_neg hkp, if_pos (List.mem_cons_of_mem k hp)]
      · by_cases hkp : k = p
        · subst hkp
          rw [if_neg hp, if_pos rfl, if_pos (List.mem_cons_self k t)]
        · rw [if_neg hp, if_neg hkp,
            if_neg (fun hc => (List.mem_cons.mp hc).elim (fun h => hkp h.symm) hp)]
    · rw [hodlf]
      rfl

/-- The state carried by an admission-loop outcome. -/
def InnerOut.stateOf : InnerOut → RcState
  | InnerOut.gotPeer _ _ s => s
  | InnerOut.gaveUp s => s
  | InnerOut.again s => s

lemma odInv_innerStep (env : RcEnv) (st : RcState) (hinv : OdInvSt st) :
    OdInvSt (innerStep env st).stateOf := by
  cases hsel : selectPeer env.po st.skiplist env.peers with
  | none =>
    by_cases hod : st.odlist = []
    · rw [innerStep_none_gaveUp hsel hod]
      exact hinv
    · rw [innerStep_none_refresh hsel hod]
      show OdInv [] ((st.odlist.foldl refreshStep st).skiplist)
        (st.odlist.foldl refreshStep st).evs
      obtain ⟨h1, h2, h3, h4, h5⟩ := hinv
      obtain ⟨hPf, hodf, hfcf, hrcf, -⟩ := refreshFold_counts st.odlist st h1
        (fun k hk => by have := h3 k; rw [if_pos hk] at this; omega) h5
      refine ⟨List.nodup_nil, by simp, ?_, ?_, hPf⟩
      · intro p
        rw [if_neg (List.not_mem_nil p), hodf p, hrcf p]
        have := h3 p
        omega
      · intro p
        rw [hodf p, hfcf p]
        exact h4 p
  | some pr =>
    obtain ⟨ov, pid⟩ := pr
    obtain ⟨hnsk, hmem, -⟩ := selectPeer_some hsel
    have hinv1 : OdInv st.odlist (pid :: st.skiplist) (st.evs ++ [Ev.skipAdd pid]) :=
      odInv_grow pid (odInv_neutral hinv (Ev.skipAdd pid)
        (fun p => remCount_single_ne (fun q => by simp))
        (fun p => odCount_single_ne (fun q => by simp)))
    cases hlk : lookupAcct st.acct pid with
    | none =>
      rw [innerStep_sel_none hsel hlk]
      exact hinv1
    | some a =>
      have hinv2 : OdInv st.odlist (pid :: st.skiplist)
          ((st.evs ++ [Ev.skipAdd pid]) ++
            [Ev.reserveCall pid (env.price ov) (reserve a (env.price ov)).1]) :=
        odInv_neutral hinv1 _
          (fun p => remCount_single_ne (fun q => by simp))
          (fun p => odCount_single_ne (fun q => by simp))
      cases hre : (reserve a (env.price ov)).1 with
      | true =>
        rw [innerStep_reserve_ok hsel hlk hre]
        exact hinv2
      | false =>
        rw [innerStep_reserve_fail hsel hlk hre]
        rw [hre] at hinv2
        show OdInvSt (odState pid (reserveState pid (env.price ov)
          (reserve a (env.price ov)) (selState pid st)))
        unfold odState reserveState selState
        dsimp only
        rw [hre]
        have hnod : pid ∉ st.odlist := fun hc => hnsk (hinv.2.1 pid hc)
        rw [List.insert_of_not_mem hnod]
        refine odInv_odAdd hinv2 hnod (List.mem_cons_self pid _) ?_
        rw [odCount_append, odCount_append, failCount_append, failCount_append,
          odCount_single_ne (fun q => by simp), odCount_single_ne (fun q => by simp),
          failCount_single_other (fun a b c hc => Ev.noConfusion hc),
          failCount_single pid pid (env.price ov) false]
        have h4p := hinv.2.2.2.1 pid
        rw [if_pos (show pid = pid ∧ (false : Bool) = false from ⟨rfl, rfl⟩)]
        omega

lemma odInv_innerLoop (env : RcEnv) :
    ∀ (fuel : ℕ) (st : RcState) (r : Option (ℕ × ℕ)) (st' : RcState),
      innerLoop env fuel st = some (r, st') → OdInvSt st → OdInvSt st' := by
  intro fuel
  induction fuel with
  | zero => intro st r st' h _; simp [innerLoop] at h
  | succ n ih =>
    intro st r st' h hinv
    have hstep := odInv_innerStep env st hinv
    unfold innerLoop at h
    cases hs : innerStep env st with
    | gotPeer ov pid s =>
      rw [hs] at h hstep
      simp only [Option.some.injEq, Prod.mk.injEq] at h
      rw [← h.2]
      exact hstep
    | gaveUp s =>
      rw [hs] at h hstep
      simp only [Option.some.injEq, Prod.mk.injEq] at h
      rw [← h.2]
      exact hstep
    | again s =>
      rw [hs] at h hstep
      exact ih s r st' h hstep

lemma odInv_cancelIfPresent (pid p : ℕ) (st : RcState) (hinv : OdInvSt st) :
    OdInvSt (cancelIfPresent pid p st) := by
  unfold cancelIfPresent
  cases hlk : lookupAcct st.acct pid with
  | none => exact hinv
  | some a =>
    exact odInv_neutral hinv _
      (fun q => remCount_single_ne (fun q2 => by simp))
      (fun q => odCount_single_ne (fun q2 => by simp))

lemma odInv_creditIfPresent (pid p : ℕ) (st : RcState) (hinv : OdInvSt st) :
    OdInvSt (creditIfPresent pid p st) := by
  unfold creditIfPresent
  cases hlk : lookupAcct st.acct pid with
  | none => exact hinv
  | some a =>
    exact odInv_neutral hinv _
      (fun q => remCount_single_ne (fun q2 => by simp))
      (fun q => odCount_single_ne (fun q2 => by simp))

lemma odInv_afterHandler (pid : ℕ) (st : RcState) (hinv : OdInvSt st) :
    OdInvSt (afterHandler pid st) :=
  odInv_neutral hinv _
    (fun q => remCount_single_ne (fun q2 => by simp))
    (fun q => odCount_single_ne (fun q2 => by simp))

lemma odInv_afterTransportFail (pid p : ℕ) (st : RcState) (hinv : OdInvSt st) :
    OdInvSt (afterTransportFail pid p st) := by
  unfold afterTransportFail
  dsimp only
  exact odInv_cancelIfPresent pid p _ (odInv_cancelIfPresent pid p st hinv)

lemma odInv_afterInvalid (pid p : ℕ) (st : RcState) (hinv : OdInvSt st) :
    OdInvSt (afterInvalid pid p st) := by
  unfold afterInvalid
  exact odInv_cancelIfPresent pid p _ hinv

/-- The invariant holds at the end of every terminating run. -/
lemma odInv_outerLoop (env : RcEnv) (innerFuel : ℕ) :
    ∀ (fuel : ℕ) (st : RcState) (res : Bytes) (st' : RcState),
      outerLoop env innerFuel fuel st = some (res, st') → OdInvSt st → OdInvSt st' := by
  intro fuel
  induction fuel with
  | zero => intro st res st' h _; simp [outerLoop] at h
  | succ n ih =>
    intro st res st' h hinv
    by_cases hcond : st.errorCount < st.maxError
    · cases hil : innerLoop env innerFuel st with
      | none =>
        rw [outerLoop] at h
        rw [if_pos hcond, hil] at h
        exact absurd h (by simp)
      | some pr =>
        obtain ⟨sel, st1⟩ := pr
        have hinv1 : OdInvSt st1 := odInv_innerLoop env innerFuel st sel st1 hil hinv
        cases sel with
        | none =>
          rw [outerLoop_succ_gaveUp hcond hil] at h
          simp only [Option.some.injEq, Prod.mk.injEq] at h
          rw [← h.2]
          exact hinv1
        | some pr2 =>
          obtain ⟨ov, pid⟩ := pr2
          have hinv2 : OdInvSt (afterHandler pid st1) := odInv_afterHandler pid st1 hinv1
          cases hx : env.exchange st1.attempts with
          | none =>
            rw [outerLoop_succ_transport hcond hil hx] at h
            exact ih _ res st' h (odInv_afterTransportFail pid (env.price ov) _ hinv2)
          | some bytes =>
            cases hcac : env.vcac bytes with
            | true =>
              rw [outerLoop_succ_cac hcond hil hx hcac] at h
              simp only [Option.some.injEq, Prod.mk.injEq] at h
              rw [← h.2]
              exact odInv_creditIfPresent pid (env.price ov) _ hinv2
            | false =>
              cases hsocv : env.vsoc bytes with
              | true =>
                rw [outerLoop_succ_soc hcond hil hx hcac hsocv] at h
                simp only [Option.some.injEq, Prod.mk.injEq] at h
                rw [← h.2]
                exact odInv_creditIfPresent pid (env.price ov) _ hinv2
              | false =>
                rw [outerLoop_succ_invalid hcond hil hx hcac hsocv] at h
                exact ih _ res st' h (odInv_afterInvalid pid (env.price ov) _ hinv2)
    · rw [outerLoop_succ_stop hcond] at h
      simp only [Option.some.injEq, Prod.mk.injEq] at h
      rw [← h.2]
      exact hinv

/-- Claim C7 (amended): within one invocation of `retrieve_chunk`, the
skip-list grows except during the overdraft refresh: at every point of
the trace of a terminating run, the number of removals of a peer from
the skip-list never exceeds the number of its overdraft listings, which
never exceeds the number of its failed reserves — so a peer is removed
only as part of a refresh of the overdraft list it had entered through a
failed reserve. (The skip-list is a local variable of the invocation, so
no other invocation can read it.) -/
theorem claim_C7_amended (env : RcEnv) (acct : List (ℕ × PeerAccounting))
    (outerFuel innerFuel : ℕ) (res : Bytes) (st' : RcState)
    (hrun : retrieve_chunk env acct outerFuel innerFuel = some (res, st')) :
    ∀ p n, remCount p (st'.evs.take n) ≤ odCount p (st'.evs.take n) ∧
      odCount p (st'.evs.take n) ≤ failCount p (st'.evs.take n) :=
  (odInv_outerLoop env innerFuel outerFuel (initState acct) res st' hrun odInv_init).2.2.2.2

/-- The final state of the overdraft-refresh run of
`claim_C7_counterexample`. -/
def stRefresh : RcState :=
  ⟨false, [7], [], 0, 1, [1, 2, 3], [(7, ⟨0, 1, 10⟩)], 1,
    [Ev.skipAdd 7, Ev.reserveCall 7 1 false, Ev.odAdd 7, Ev.refreshReq 7,
      Ev.skipRemove 7, Ev.skipAdd 7, Ev.reserveCall 7 1 true, Ev.handlerCall 7,
      Ev.creditCall 7 1]⟩

/-- Witness for C7 (amended): in the refresh run, after five events the
single removal of peer 7 is matched by its single overdraft listing and
its single failed reserve. -/
theorem claim_C7_witness :
    remCount 7 (stRefresh.evs.take 5) ≤ odCount 7 (stRefresh.evs.take 5) ∧
      odCount 7 (stRefresh.evs.take 5) ≤ failCount 7 (stRefresh.evs.take 5) :=
  claim_C7_amended envRefresh acctPoor 1 4 [1, 2, 3] stRefresh (by decide) 7 5

/-! ## The feed locator seek_latest_feed_update (retrieval.rs lines 401-494)

The locator keeps the mutable quadruple `(largest_found,
smallest_not_found, lower_bound, upper_bound)` across rounds of the
`while !_exact_` loop.  Each round computes `angle = upper_bound -
lower_bound` (u64 subtraction, wrapping in release builds, modelled as
`(ub + W - lb) % W`), dispatches existence probes through the counter
loop embedded above as `dispatchList`, folds the probe results into the
scores (an empty result lowers `smallest_not_found`, a non-empty one
raises `largest_found`; each update is a min/max update, so the
`FuturesUnordered` completion order cannot change the folded values),
returns the data at `largest_found` when the exact frontier
`largest_found + 1 == smallest_not_found` is hit, and otherwise advances
`lower_bound` and narrows or widens the window.  The probe oracle
`present j` stands for "`get_chunk` at the feed address of index `j`
returned a non-empty result" and `content j` for the bytes `get_data`
returns at the feed address of index `j`. -/

/-- Round state of `seek_latest_feed_update`: the mutable quadruple of
lines 407-410. -/
structure SeekSt where
  largestFound : ℕ
  smallestNotFound : ℕ
  lowerBound : ℕ
  upperBound : ℕ
  deriving Repr, DecidableEq

/-- The initial state (lines 407-410): `largest_found = 0`,
`smallest_not_found = u64::MAX`, `lower_bound = 0` and
`upper_bound = 2_u64.pow(redundancy)` (wrapping u64 power). -/
def seekInit (r : ℕ) : SeekSt := ⟨0, MAXU, 0, 2 ^ r % W⟩

/-- Folding one probe result into the scores (lines 448-453): an empty
result at index `j` lowers `smallest_not_found` to `j` when `j` is below
it; a non-empty result raises `largest_found` to `j` when `j` is above
it. -/
def noteProbe (present : ℕ → Bool) (st : SeekSt) (j : ℕ) : SeekSt :=
  let st1 := if present j = false ∧ j < st.smallestNotFound then
    { st with smallestNotFound := j } else st
  if present j = true ∧ st1.largestFound < j then
    { st1 with largestFound := j } else st1

/-- Outcome of one round of the locator loop. -/
inductive RoundOut where
  | found (idx : ℕ)
  | empty
  | next (st : SeekSt)
  | stuck
  deriving Repr, DecidableEq

/-- The tail of a round after all probe results are folded in (lines
460-490): return the data at `largest_found` if the exact frontier
fired; otherwise set `lower_bound := largest_found + 1` (wrapping) and
either narrow the window to `smallest_not_found`, give up when both
scores are zero, or reset `smallest_not_found` and widen to
`lower_bound + 2^r` (wrapping). -/
def seekStep (r : ℕ) (st1 : SeekSt) : RoundOut :=
  if (st1.largestFound + 1) % W = st1.smallestNotFound then
    RoundOut.found st1.largestFound
  else if (st1.largestFound + 1) % W < st1.smallestNotFound then
    RoundOut.next { st1 with lowerBound := (st1.largestFound + 1) % W,
                             upperBound := st1.smallestNotFound }
  else if st1.smallestNotFound = 0 ∧ st1.largestFound = 0 then
    RoundOut.empty
  else
    RoundOut.next { st1 with
      smallestNotFound := MAXU,
      lowerBound := (st1.largestFound + 1) % W,
      upperBound := ((st1.largestFound + 1) % W + 2 ^ r % W) % W }

/-- One round of the `while !_exact_` loop (lines 413-491): compute
`angle` (wrapping u64 subtraction), dispatch the probes, fold the results
into the scores and run the frontier/narrow/widen tail.
`RoundOut.stuck` records that the probe loop did not exit within its
fuel. -/
def seekRound (present : ℕ → Bool) (r dispatchFuel : ℕ) (st : SeekSt) :
    RoundOut :=
  match dispatchList st.lowerBound st.upperBound
      ((st.upperBound + W - st.lowerBound) % W) r dispatchFuel 0 with
  | none => RoundOut.stuck
  | some probes => seekStep r (probes.foldl (noteProbe present) st)

/-- The round loop, fuel-indexed: `some (some idx)` means the exact
frontier fired at `largest_found = idx` (line 460, the code returns
`get_data` at the feed address of `idx`), `some none` is the empty
return of line 480, and `none` means some loop failed to exit within
its fuel. -/
def seekAux (present : ℕ → Bool) (r dispatchFuel : ℕ) :
    ℕ → SeekSt → Option (Option ℕ)
  | 0, _ => none
  | fuel + 1, st =>
    match seekRound present r dispatchFuel st with
    | RoundOut.stuck => none
    | RoundOut.found idx => some (some idx)
    | RoundOut.empty => some none
    | RoundOut.next st1 => seekAux present r dispatchFuel fuel st1

/-- `seek_latest_feed_update` (lines 401-494) over the probe and content
oracles. -/
def seek_latest_feed_update (present : ℕ → Bool) (content : ℕ → Bytes)
    (r dispatchFuel roundFuel : ℕ) : Option Bytes :=
  match seekAux present r dispatchFuel roundFuel (seekInit r) with
  | none => none
  | some none => some []
  | some (some idx) => some (content idx)

/-- Normal form of one score update: the non-empty case raises
`largest_found`, the empty case lowers `smallest_not_found`, and the
bounds are untouched. -/
theorem noteProbe_eq (p : ℕ → Bool) (st : SeekSt) (j : ℕ) :
    noteProbe p st j =
      ⟨if p j = true ∧ st.largestFound < j then j else st.largestFound,
       if p j = false ∧ j < st.smallestNotFound then j else st.smallestNotFound,
       st.lowerBound, st.upperBound⟩ := by
  rcases st with ⟨lf, snf, lb, ub⟩
  unfold noteProbe
  dsimp only
  by_cases h1 : p j = false ∧ j < snf
  · rw [if_pos h1]
    dsimp only
    by_cases h2 : p j = true ∧ lf < j
    · rw [if_pos h2, if_pos h2, if_pos h1]
    · rw [if_neg h2, if_neg h2, if_pos h1]
  · rw [if_neg h1]
    dsimp only
    by_cases h2 : p j = true ∧ lf < j
    · rw [if_pos h2, if_pos h2, if_neg h1]
    · rw [if_neg h2, if_neg h2, if_neg h1]

/-- Two score updates commute: each is a min/max-style update of an
independent field. -/
theorem noteProbe_comm (p : ℕ → Bool) (st : SeekSt) (j1 j2 : ℕ) :
    noteProbe p (noteProbe p st j1) j2 = noteProbe p (noteProbe p st j2) j1 := by
  rcases st with ⟨lf, snf, lb, ub⟩
  rw [noteProbe_eq p ⟨lf, snf, lb, ub⟩ j1, noteProbe_eq p ⟨lf, snf, lb, ub⟩ j2,
    noteProbe_eq, noteProbe_eq]
  cases hp1 : p j1 <;> cases hp2 : p j2 <;>
    simp only [SeekSt.mk.injEq, Bool.false_eq_true, Bool.true_eq_false, false_and,
      true_and, and_true, if_false, ite_false, ite_true, eq_self_iff_true] <;>
    split_ifs <;> omega

/-- Model adequacy for the `FuturesUnordered` receive loop of lines
442-454: folding the probe results in any arrival order yields the same
scores, so embedding the fold in dispatch order loses no behaviour. -/
theorem noteFold_perm (p : ℕ → Bool) (st : SeekSt) (l1 l2 : List ℕ)
    (hp : l1.Perm l2) :
    l1.foldl (noteProbe p) st = l2.foldl (noteProbe p) st :=
  hp.foldl_eq' (fun x _ y _ z => noteProbe_comm p z x y) st

/-- More probe-loop fuel never changes a result the loop reached: the
exit is decided by the counter path, not by the fuel bound. -/
theorem dispatchList_mono (lb ub angle r : ℕ) :
    ∀ fuel gfuel i l, fuel ≤ gfuel →
      dispatchList lb ub angle r fuel i = some l →
      dispatchList lb ub angle r gfuel i = some l := by
  intro fuel
  induction fuel with
  | zero => intro g i l _ h; exact absurd h (by simp [dispatchList])
  | succ n ih =>
    intro g i l hle h
    cases g with
    | zero => exact absurd hle (by omega)
    | succ g =>
      rw [dispatchList] at h ⊢
      by_cases hc : (lb + i) % W ≤ ub
      · rw [if_pos hc] at h ⊢
        cases hrec : dispatchList lb ub angle r n
            (if i = 0 ∨ angle ≤ r then (i + 1) % W else (i * 2) % W) with
        | none => rw [hrec] at h; exact absurd h (by simp)
        | some l2 =>
          rw [hrec] at h
          rw [ih g _ l2 (Nat.le_of_succ_le_succ hle) hrec]
          exact h
      · rw [if_neg hc] at h ⊢
        exact h

/-- With `upper_bound = u64::MAX`, the probe loop of lines 423-438 never
exits: the condition `lower_bound + i <= upper_bound` holds for every
(wrapped) value of the counter, so every fuel bound is exhausted. -/
theorem dispatchList_maxu (lb angle r : ℕ) :
    ∀ fuel i, dispatchList lb MAXU angle r fuel i = none := by
  intro fuel
  induction fuel with
  | zero => intro i; rfl
  | succ n ih =>
    intro i
    rw [dispatchList]
    rw [if_pos (show (lb + i) % W ≤ MAXU from by
      have h1 : (lb + i) % W < W := Nat.mod_lt _ (by decide)
      have h2 : MAXU + 1 = W := by decide
      omega)]
    rw [ih]

/-- A round whose window's upper bound is the `u64::MAX` sentinel gets
stuck in the probe loop. -/
theorem seekRound_maxu (present : ℕ → Bool) (r dispatchFuel : ℕ)
    (st : SeekSt) (hub : st.upperBound = MAXU) :
    seekRound present r dispatchFuel st = RoundOut.stuck := by
  unfold seekRound
  rw [hub, dispatchList_maxu]

/-- The locator never escapes a state whose upper bound is the sentinel:
every subsequent round gets stuck in its probe loop. -/
theorem seekAux_maxu (present : ℕ → Bool) (r dispatchFuel : ℕ)
    (roundFuel : ℕ) (st : SeekSt) (hub : st.upperBound = MAXU) :
    seekAux present r dispatchFuel roundFuel st = none := by
  cases roundFuel with
  | zero => rfl
  | succ n =>
    rw [seekAux, seekRound_maxu present r dispatchFuel st hub]

/-- A feed with updates present at exactly the indices below `k`. -/
def feedPresent (k : ℕ) : ℕ → Bool := fun j => decide (j < k)

/-- Feed-content oracle: index `j` carries the one-byte body `[j]`. -/
def feedContent : ℕ → Bytes := fun j => [j]

/-- Claim C3, refuted (code bug): for a feed with updates at exactly the
indices 0, 1, 2 (`k = 3`) and redundancy `r = 1`, `seek_latest_feed_update`
diverges — it returns no result no matter how much probe-loop or
round-loop fuel it is granted — instead of returning the content at index
`k - 1 = 2` within about `log2 k` rounds.  (In the first round the window
is `[0, 2]` and all three probes come back present, so
`smallest_not_found` keeps its `u64::MAX` sentinel; line 475 then copies
the sentinel into `upper_bound`, and the next probe loop's condition
`lower_bound + i <= upper_bound` (line 423, wrapping u64 arithmetic)
holds for every value of the counter, so the loop never exits.)  By
contrast, a feed inside the initial window (`k = 2`, same redundancy)
converges in one round to the content at index `k - 1 = 1`. -/
theorem claim_C3 :
    (∀ dispatchFuel roundFuel,
        seek_latest_feed_update (feedPresent 3) feedContent 1
          dispatchFuel roundFuel = none) ∧
      seek_latest_feed_update (feedPresent 2) feedContent 1 5 1 =
        some [1] := by
  constructor
  · intro df rf
    have hmain : seekAux (feedPresent 3) 1 df rf (seekInit 1) = none := by
      cases rf with
      | zero => rfl
      | succ rf =>
        rw [seekAux]
        rw [show seekInit 1 = (⟨0, MAXU, 0, 2⟩ : SeekSt) from by decide]
        have hround : seekRound (feedPresent 3) 1 df ⟨0, MAXU, 0, 2⟩ =
            RoundOut.stuck ∨
            seekRound (feedPresent 3) 1 df ⟨0, MAXU, 0, 2⟩ =
              RoundOut.next ⟨2, MAXU, 3, MAXU⟩ := by
          unfold seekRound
          dsimp only
          rw [show ((2 + W - 0) % W : ℕ) = 2 from by decide]
          cases hd : dispatchList 0 2 2 1 df 0 with
          | none => left; rfl
          | some l =>
            right
            have h5 : dispatchList 0 2 2 1 5 0 = some [0, 1, 2] := by decide
            have hl : l = [0, 1, 2] := by
              rcases Nat.le_total df 5 with h | h
              · exact Option.some.inj
                  ((dispatchList_mono 0 2 2 1 df 5 0 l h hd).symm.trans h5)
              · exact Option.some.inj
                  (hd.symm.trans (dispatchList_mono 0 2 2 1 5 df 0 [0, 1, 2] h h5))
            rw [hl]
            decide
        rcases hround with h | h
        · rw [h]
        · rw [h]
          exact seekAux_maxu (feedPresent 3) 1 df rf ⟨2, MAXU, 3, MAXU⟩ rfl
    unfold seek_latest_feed_update
    rw [hmain]
  · decide

end Weeb3
